import Mathlib

/-!
# Verification of the automata version-resolution engine

This file gives a shallow embedding of the version classifier/comparator
(`internal/updater`, mirroring `golang.org/x/mod/semver`), the resolver
loops (`internal/container`, `internal/helm`, `internal/github`), and the
kustomization image-update filter (`internal/kio`), together with theorems
settling the specification claims about them.
-/

set_option maxHeartbeats 1000000

namespace Automata

/-! ## Character-level helpers (mirroring byte tests in `x/mod/semver`) -/

/-- `'0' <= c && c <= '9'` as in the Go source. -/
def isDigit (c : Char) : Bool := '0' ≤ c ∧ c ≤ '9'

/-- `isIdentChar` from `x/mod/semver`: ASCII letters, digits and hyphen. -/
def isIdentChar (c : Char) : Bool :=
  ('A' ≤ c ∧ c ≤ 'Z') ∨ ('a' ≤ c ∧ c ≤ 'z') ∨ ('0' ≤ c ∧ c ≤ '9') ∨ c = '-'

/-- `isBadNum` from `x/mod/semver`: an all-digit identifier with a leading
zero and more than one digit. -/
def isBadNum (l : List Char) : Bool :=
  l.all isDigit ∧ l.length > 1 ∧ l.head? = some '0'

/-- Split a character list at `'.'` separators, like `strings.Split` /
the identifier walk in `comparePrerelease`. `splitDots [] = [[]]`. -/
def splitDots : List Char → List (List Char)
  | [] => [[]]
  | c :: r =>
    if c = '.' then [] :: splitDots r
    else
      match splitDots r with
      | s :: rest => (c :: s) :: rest
      | [] => [[c]]

/-- Strict lexicographic order on character lists, as Go's `<` on strings
of equal content class (all comparisons in the source are on ASCII). -/
def lexLt : List Char → List Char → Bool
  | [], [] => false
  | [], _ :: _ => true
  | _ :: _, [] => false
  | a :: as, b :: bs => if a < b then true else if a = b then lexLt as bs else false

/-! ## The `x/mod/semver` parser -/

/-- Result of `x/mod/semver`'s `parse`: the component substrings.
`short` is `""`, `".0"` or `".0.0"`; `prerelease` keeps its leading `'-'`
and `build` its leading `'+'`, as in the Go struct. -/
structure SemParsed where
  major : List Char
  minor : List Char
  patch : List Char
  short : List Char
  prerelease : List Char
  build : List Char
  deriving DecidableEq

/-- `parseInt` from `x/mod/semver`: a non-empty digit run with no leading
zero (unless it is exactly "0"), returning the run and the rest. -/
def parseIntL (l : List Char) : Option (List Char × List Char) :=
  match l with
  | [] => none
  | c :: _ =>
    if isDigit c then
      let t := l.takeWhile isDigit
      if c = '0' ∧ t.length ≠ 1 then none
      else some (t, l.dropWhile isDigit)
    else none

/-- `parsePrerelease` from `x/mod/semver` on a list starting with `'-'`:
scan up to the first `'+'`; the dot-separated identifiers must be
non-empty, made of identifier characters and not bad numbers. -/
def parsePreL (l : List Char) : Option (List Char × List Char) :=
  match l with
  | [] => none
  | c :: rest =>
    if c = '-' then
      let body := rest.takeWhile (· ≠ '+')
      let r := rest.dropWhile (· ≠ '+')
      if (splitDots body).all (fun s => s ≠ [] ∧ ¬ isBadNum s) ∧
          body.all (fun c => isIdentChar c ∨ c = '.') then
        some ('-' :: body, r)
      else none
    else none

/-- `parseBuild` from `x/mod/semver` on a list starting with `'+'`: the
rest of the string, dot-separated identifiers non-empty and made of
identifier characters (bad numbers allowed). -/
def parseBldL (l : List Char) : Option (List Char × List Char) :=
  match l with
  | [] => none
  | c :: rest =>
    if c = '+' then
      if (splitDots rest).all (fun s => s ≠ []) ∧
          rest.all (fun c => isIdentChar c ∨ c = '.') then
        some ('+' :: rest, [])
      else none
    else none

/-- `parse` from `x/mod/semver`: leading `'v'`, major, optional minor and
patch, optional prerelease and build, nothing left over. -/
def parseSemL (l : List Char) : Option SemParsed :=
  match l with
  | [] => none
  | c0 :: rest =>
    if c0 = 'v' then
      match parseIntL rest with
      | none => none
      | some (maj, r1) =>
        match r1 with
        | [] => some ⟨maj, ['0'], ['0'], ['.', '0', '.', '0'], [], []⟩
        | c1 :: r2 =>
          if c1 = '.' then
            match parseIntL r2 with
            | none => none
            | some (min, r3) =>
              match r3 with
              | [] => some ⟨maj, min, ['0'], ['.', '0'], [], []⟩
              | c2 :: r4 =>
                if c2 = '.' then
                  match parseIntL r4 with
                  | none => none
                  | some (pat, r5) =>
                    let pre? : Option (List Char × List Char) :=
                      if r5.head? = some '-' then parsePreL r5 else some ([], r5)
                    match pre? with
                    | none => none
                    | some (pre, r6) =>
                      let bld? : Option (List Char × List Char) :=
                        if r6.head? = some '+' then parseBldL r6 else some ([], r6)
                      match bld? with
                      | none => none
                      | some (bld, r7) =>
                        if r7 = [] then some ⟨maj, min, pat, [], pre, bld⟩ else none
                else none
          else none
    else none

/-- `semver.IsValid`. -/
def semValid (s : String) : Bool := (parseSemL s.data).isSome

/-- `semver.Major`: `"v" + major` for a valid version, else `""`. -/
def semMajor (s : String) : String :=
  match parseSemL s.data with
  | none => ""
  | some p => ⟨'v' :: p.major⟩

/-- `semver.MajorMinor`: `"v" + major + "." + minor` for a valid version. -/
def semMajorMinor (s : String) : String :=
  match parseSemL s.data with
  | none => ""
  | some p => ⟨'v' :: p.major ++ '.' :: p.minor⟩

/-- `semver.Canonical`: the full `vMAJOR.MINOR.PATCH[-PRERELEASE]` form,
dropping build metadata. -/
def semCanonical (s : String) : String :=
  match parseSemL s.data with
  | none => ""
  | some p => ⟨'v' :: p.major ++ '.' :: p.minor ++ '.' :: p.patch ++ p.prerelease⟩

/-- `semver.Prerelease`: the prerelease suffix including its `'-'`. -/
def semPrerelease (s : String) : String :=
  match parseSemL s.data with
  | none => ""
  | some p => ⟨p.prerelease⟩

/-- `semver.Build`: the build suffix including its `'+'`. -/
def semBuild (s : String) : String :=
  match parseSemL s.data with
  | none => ""
  | some p => ⟨p.build⟩

/-! ## `x/mod/semver` comparison -/

/-- `compareInt` from `x/mod/semver`: equal strings tie, else shorter
digit-run is smaller, else lexicographic. -/
def cmpInt (x y : List Char) : Int :=
  if x = y then 0
  else if x.length < y.length then -1
  else if y.length < x.length then 1
  else if lexLt x y then -1 else 1

/-- `isNum` from `x/mod/semver`. -/
def isNum (l : List Char) : Bool := l.all isDigit

/-- The unequal-identifier comparison inside `comparePrerelease`:
numeric identifiers sort before alphanumeric ones, numerics by length
then lexicographically, otherwise plain lexicographic. -/
def cmpIdent (dx dy : List Char) : Int :=
  if isNum dx ≠ isNum dy then (if isNum dx then -1 else 1)
  else if isNum dx then
    if dx.length < dy.length then -1
    else if dy.length < dx.length then 1
    else if lexLt dx dy then -1 else 1
  else if lexLt dx dy then -1 else 1

/-- The identifier walk of `comparePrerelease`: pairwise identifiers,
equal ones skipped; a list that runs out first is smaller. -/
def cmpIdentList : List (List Char) → List (List Char) → Int
  | [], [] => -1
  | [], _ :: _ => -1
  | _ :: _, [] => 1
  | x :: xs, y :: ys => if x = y then cmpIdentList xs ys else cmpIdent x y

/-- `comparePrerelease` from `x/mod/semver`: equal ties, an empty
prerelease (a release) is greater than any prerelease, otherwise the
identifier walk after the leading `'-'`. -/
def cmpPre (x y : List Char) : Int :=
  if x = y then 0
  else if x = [] then 1
  else if y = [] then -1
  else cmpIdentList (splitDots (x.drop 1)) (splitDots (y.drop 1))

/-- `semver.Compare`: invalid versions sort before valid ones and tie with
each other; valid versions compare by major, minor, patch, prerelease. -/
def semCmp (a b : String) : Int :=
  match parseSemL a.data, parseSemL b.data with
  | none, none => 0
  | none, some _ => -1
  | some _, none => 1
  | some p, some q =>
    let c1 := cmpInt p.major q.major
    if c1 ≠ 0 then c1
    else
      let c2 := cmpInt p.minor q.minor
      if c2 ≠ 0 then c2
      else
        let c3 := cmpInt p.patch q.patch
        if c3 ≠ 0 then c3 else cmpPre p.prerelease q.prerelease

/-! ## The `internal/updater` package -/

/-- `updater.Comparison`. -/
inductive Comparison
  | Equal
  | Greater
  | Less
  deriving DecidableEq

/-- `updater.VersionType`. -/
inductive VersionType
  | CanonicalVersion
  | MajorMinorVersion
  | MajorVersion
  | PreReleaseVersion
  deriving DecidableEq

/-- `updater.PolicyType` (the source spells `PathRelease`). -/
inductive PolicyType
  | MajorRelease
  | PathRelease
  | MinorRelease
  deriving DecidableEq

/-- The named capture groups the updater reads from a transform regex
(`version`, `major`, `minor`, `patch`, `prerelease`, `build`); a group
that is absent from the pattern or did not participate in the match is
the empty string, exactly as `getSubexpValue` yields. -/
structure Groups where
  version : String := ""
  major : String := ""
  minor : String := ""
  patch : String := ""
  prerelease : String := ""
  build : String := ""
  deriving DecidableEq

/-- A transform regex, abstracted to its observable behavior in the
updater: `FindStringSubmatch` either fails or produces the named groups. -/
structure Rgx where
  find : String → Option Groups

/-- `updater.options` built by `WithTransform` / `WithPolicy`. -/
structure Options where
  transformRegex : Option Rgx := none
  policy : Option PolicyType := none

/-- The leading-marker normalization inside `updater.Canonical`: a leading
`'V'` becomes `'v'`, a missing `'v'` is prepended. -/
def canonMarkL (l : List Char) : List Char :=
  match l with
  | [] => ['v']
  | c :: r => if c = 'V' then 'v' :: r else if c = 'v' then 'v' :: r else 'v' :: c :: r

/-- String form of `canonMarkL`. -/
def canonMark (s : String) : String := ⟨canonMarkL s.data⟩

/-- `canonicalWithRegex` from the updater: assemble
`vMAJOR.MINOR.PATCH[-PRERELEASE][+BUILD]` from the numeric groups,
missing ones defaulting to `"0"`. -/
def canonicalWithRegex (g : Groups) : String :=
  let orZero := fun (s : String) => if s = "" then "0" else s
  "v" ++ orZero g.major ++ "." ++ orZero g.minor ++ "." ++ orZero g.patch
    ++ (if g.prerelease ≠ "" then "-" ++ g.prerelease else "")
    ++ (if g.build ≠ "" then "+" ++ g.build else "")

/-- Error values of the updater, standing for the `error` results. -/
inductive VErr
  | noRegexMatch
  | undetermined
  deriving DecidableEq

/-- `updater.Canonical` as the Go pair `(string, error)`: apply the
transform regex if present (failing when it does not match), then
normalize the leading marker. No validation is performed. -/
def Canonical (v : String) (o : Options) : String × Option VErr :=
  match o.transformRegex with
  | some re =>
    match re.find v with
    | none => ("", some .noRegexMatch)
    | some g =>
      let v' := if g.version = "" then canonicalWithRegex g else g.version
      (canonMark v', none)
  | none => (canonMark v, none)

/-- The regexless classification at the end of `updater.Type`: canonicalize
the marker, then classify from which `x/mod/semver` components are
present. Returns the Go zero value with an error when nothing matches. -/
def typeFromSem (v : String) : VersionType × Option VErr :=
  let v := canonMark v
  if semPrerelease v ≠ "" ∨ semBuild v ≠ "" then (.PreReleaseVersion, none)
  else if v = semMajor v then (.MajorVersion, none)
  else if v = semMajorMinor v then (.MajorMinorVersion, none)
  else if v = semCanonical v then (.CanonicalVersion, none)
  else (.CanonicalVersion, some .undetermined)

/-- `updater.Type` as the Go pair `(VersionType, error)`: with a transform
regex, classify from the populated capture groups when no `version` group
is present, otherwise classify the extracted string. -/
def TypeOf (v : String) (o : Options) : VersionType × Option VErr :=
  match o.transformRegex with
  | some re =>
    match re.find v with
    | none => (.CanonicalVersion, some .noRegexMatch)
    | some g =>
      if g.version = "" then
        if g.prerelease ≠ "" then (.PreReleaseVersion, none)
        else if g.patch ≠ "" then (.CanonicalVersion, none)
        else if g.minor ≠ "" then (.MajorMinorVersion, none)
        else if g.major ≠ "" then (.MajorVersion, none)
        else (.CanonicalVersion, some .undetermined)
      else typeFromSem g.version
  | none => typeFromSem v

/-- `strconv.Atoi`: optional sign, at least one digit, all digits,
64-bit range. -/
def atoiL (l : List Char) : Option Int :=
  let sd : Int × List Char :=
    match l with
    | '+' :: r => (1, r)
    | '-' :: r => (-1, r)
    | r => (1, r)
  let digits := sd.2
  if digits = [] ∨ ¬ digits.all isDigit then none
  else
    let n : Nat := digits.foldl (fun a c => a * 10 + (c.toNat - '0'.toNat)) 0
    let v : Int := sd.1 * n
    if v < -(2 ^ 63) ∨ v > 2 ^ 63 - 1 then none else some v

/-- `updater.semverParts`: trim one leading `'v'`, cut at the first `'-'`
or `'+'`, split at dots, pad or truncate to three parts, `Atoi` each. -/
def semverParts (v : String) : Option (Int × Int × Int) :=
  let l :=
    match v.data with
    | 'v' :: r => r
    | r => r
  let l := l.takeWhile (fun c => c ≠ '-' ∧ c ≠ '+')
  let parts :=
    match splitDots l with
    | [a] => [a, ['0'], ['0']]
    | [a, b] => [a, b, ['0']]
    | ps => ps.take 3
  match parts with
  | [a, b, c] =>
    match atoiL a, atoiL b, atoiL c with
    | some x, some y, some z => some (x, y, z)
    | _, _, _ => none
  | _ => none

/-- `updater.Policy` as the Go pair `(PolicyType, error)`: classify the
baseline's magnitudes, `MajorRelease` with an error flag on parse
failure. -/
def Policy (baseline : String) : PolicyType × Bool :=
  match semverParts baseline with
  | none => (.MajorRelease, true)
  | some (maj, min, pat) =>
    if maj = 0 ∧ min = 0 ∧ pat > 0 then (.PathRelease, false)
    else if maj = 0 ∧ min > 0 then (.MinorRelease, false)
    else (.MajorRelease, false)

/-- The distinguishable error results of `updater.Compare`:
`baselineType`/`baselineCanon` are the plainly wrapped baseline failures,
`invalidTarget` wraps `ErrInvalidTarget`, `typeMismatch` is
`ErrTypeMismatch` and `policyRejection` is `ErrPolicyRejection`. -/
inductive CmpErr
  | baselineType (e : VErr)
  | invalidTarget (e : VErr)
  | typeMismatch
  | baselineCanon (e : VErr)
  | policyRejection
  deriving DecidableEq

/-- `updater.Compare` as the Go pair `(Comparison, error)`: the `"latest"`
baseline shortcut, the type checks, canonicalization, `semver.Compare`,
and the policy gate on the would-be upgrade path. -/
def Compare (baseline target : String) (o : Options) : Comparison × Option CmpErr :=
  if baseline = "latest" then (.Greater, none)
  else
    match TypeOf baseline o with
    | (_, some e) => (.Equal, some (.baselineType e))
    | (btype, none) =>
      match TypeOf target o with
      | (_, some e) => (.Equal, some (.invalidTarget e))
      | (ttype, none) =>
        if ttype ≠ btype then (.Equal, some .typeMismatch)
        else
          match Canonical baseline o with
          | (_, some e) => (.Equal, some (.baselineCanon e))
          | (b, none) =>
            match Canonical target o with
            | (_, some e) => (.Equal, some (.invalidTarget e))
            | (t, none) =>
              let cmp := semCmp b t
              if cmp = 0 then (.Equal, none)
              else if cmp < 0 then
                match o.policy with
                | none => (.Greater, none)
                | some p =>
                  match Policy b with
                  | (_, true) => (.Equal, some .policyRejection)
                  | (pol, false) =>
                    if p ≠ pol then (.Equal, some .policyRejection)
                    else (.Greater, none)
              else (.Less, none)

/-! ## Resolver loops

Each resolver enumerates candidate strings from its external source; the
enumeration itself is I/O and is abstracted to the produced list, exactly
what the selection loops consume. Results are the Go pair
`(string, error)`. -/

/-- The selection loop of `container.FindLatestTag`: skip excluded tags,
compare the fixed baseline `imageRef.Tag` against each candidate, abort on
a comparison error, keep the candidate on `Equal` or `Greater`. -/
def findTagLoop (baseline : String) (excludes : List String) (o : Options) :
    List String → String → String × Option CmpErr
  | [], best => (best, none)
  | t :: rest, best =>
    if t ∈ excludes then findTagLoop baseline excludes o rest best
    else
      match Compare baseline t o with
      | (_, some e) => ("", some e)
      | (.Equal, none) => findTagLoop baseline excludes o rest t
      | (.Greater, none) => findTagLoop baseline excludes o rest t
      | (.Less, none) => findTagLoop baseline excludes o rest best

/-- `container.FindLatestTag` over an already-fetched tag list: best tag
starts empty. -/
def FindLatestTag (imageTag : String) (tags excludes : List String)
    (o : Options) : String × Option CmpErr :=
  findTagLoop imageTag excludes o tags ""

/-- The selection loop of `helm.FindLatestVersion`, identical in shape to
the container loop (the `default` switch arm is the `Less` case). -/
def findVersionLoop (baseline : String) (excludes : List String) (o : Options) :
    List String → String → String × Option CmpErr
  | [], best => (best, none)
  | v :: rest, best =>
    if v ∈ excludes then findVersionLoop baseline excludes o rest best
    else
      match Compare baseline v o with
      | (_, some e) => ("", some e)
      | (.Equal, none) => findVersionLoop baseline excludes o rest v
      | (.Greater, none) => findVersionLoop baseline excludes o rest v
      | (.Less, none) => findVersionLoop baseline excludes o rest best

/-- `helm.FindLatestVersion` over an already-fetched version list. -/
def FindLatestVersion (chartVersion : String) (vers excludes : List String)
    (o : Options) : String × Option CmpErr :=
  findVersionLoop chartVersion excludes o vers ""

/-- The selection loop of `github.Client.FindLatestActionTag`: as the
others, except that the source calls
`updater.Compare(*t.Name, action.Version, ...)` — the enumerated tag is
the baseline and the current action version is the target. -/
def findActionLoop (actionVersion : String) (excludes : List String) (o : Options) :
    List String → String → String × Option CmpErr
  | [], best => (best, none)
  | t :: rest, best =>
    if t ∈ excludes then findActionLoop actionVersion excludes o rest best
    else
      match Compare t actionVersion o with
      | (_, some e) => ("", some e)
      | (.Equal, none) => findActionLoop actionVersion excludes o rest t
      | (.Greater, none) => findActionLoop actionVersion excludes o rest t
      | (.Less, none) => findActionLoop actionVersion excludes o rest best

/-- `github.Client.FindLatestActionTag` over an already-fetched tag list
(the rate limiter and the GitHub call are I/O, before the loop). -/
def FindLatestActionTag (actionVersion : String) (tags excludes : List String)
    (o : Options) : String × Option CmpErr :=
  findActionLoop actionVersion excludes o tags ""

/-- The candidate walk of `specResolve`, the resolver algorithm exactly as
the specification words it for one candidate list suffix. -/
def specResolveLoop (current : String) (excludes : List String) (o : Options) :
    List String → String → String × Option CmpErr
  | [], best => (best, none)
  | c :: rest, best =>
    if c ∈ excludes then specResolveLoop current excludes o rest best
    else
      match Compare current c o with
      | (_, some e) => ("", some e)
      | (r, none) =>
        if r = .Equal ∨ r = .Greater then specResolveLoop current excludes o rest c
        else specResolveLoop current excludes o rest best

/-- The resolver algorithm exactly as the specification words it: for each
candidate in source order, skip it when excluded, otherwise call
`Compare(currentVersion, candidate, opts)`, keep it when the result is
`Equal` or `Greater` always retaining the most recently seen acceptable
candidate, and return the last kept candidate or the empty string. -/
def specResolve (current : String) (tags excludes : List String) (o : Options) :
    String × Option CmpErr :=
  specResolveLoop current excludes o tags ""

/-- The candidate walk of `specResolveSwapped`. -/
def specResolveSwappedLoop (current : String) (excludes : List String) (o : Options) :
    List String → String → String × Option CmpErr
  | [], best => (best, none)
  | c :: rest, best =>
    if c ∈ excludes then specResolveSwappedLoop current excludes o rest best
    else
      match Compare c current o with
      | (_, some e) => ("", some e)
      | (r, none) =>
        if r = .Equal ∨ r = .Greater then specResolveSwappedLoop current excludes o rest c
        else specResolveSwappedLoop current excludes o rest best

/-- The claimed algorithm with the two `Compare` arguments swapped:
`Compare(candidate, currentVersion, opts)`. -/
def specResolveSwapped (current : String) (tags excludes : List String)
    (o : Options) : String × Option CmpErr :=
  specResolveSwappedLoop current excludes o tags ""

/-! ## The kustomization image-update filter (`internal/kio`)

The document is abstracted to its `images:` list entries; the per-image
configuration comes from the parsed annotation. The external tag source is
abstracted to the list of tags it returns per image name, fixed across
runs. -/

/-- `utils.StrategyType`. -/
inductive StrategyType
  | FullUpdate
  | MinorUpdate
  | PatchUpdate
  deriving DecidableEq

/-- One `images:` list entry of a kustomization document: the fields the
filter reads (`name`, `newName`) and the one it mutates (`newTag`); a
missing scalar reads as the empty string via `yaml.GetValue`. -/
structure ImageEntry where
  name : String
  newName : String
  newTag : String
  deriving DecidableEq

/-- The per-image piece of the parsed images annotation that the filter
consumes: the exclusion set and the optional transform regex. The strategy
dimension is degenerate — a config that parses always carries the default
`FullUpdate`, and the filter adds a strategy option only for a
non-default strategy — so no policy option is ever built. -/
structure ImageCfg where
  excludeTags : List String
  tagRegex : Option Rgx

/-- Lookup in the by-name config map built by
`GetKustomizationImagesConfig`. -/
def cfgLookup (cfgs : List (String × ImageCfg)) (name : String) : Option ImageCfg :=
  match cfgs with
  | [] => none
  | (n, c) :: rest => if n = name then some c else cfgLookup rest name

/-- Modelled from the spec: `utils.NormalizeSemverWithRegex`, called by
`UpdateKustomizationImages` on the current tag, is absent from the
sources; with no extraction rule the spec's `Canonical` "normalizes the
leading marker character", which is exactly `utils.NormalizeSemverPrefix`
from the sources (`canonMark` here). -/
def normalizeSemverNoRegex (v : String) : String := canonMark v

/-- The errors of the modelled kustomization filter: a wrapped failure of
the baseline normalization, or a wrapped failure of the resolver. -/
inductive KioErr
  | normalize (e : VErr)
  | resolve (e : CmpErr)
  deriving DecidableEq

/-- Modelled from the spec: `utils.NormalizeSemverWithRegex`, called by
`UpdateKustomizationImages` on the current tag, is absent from the
sources. Per the spec's `Canonical`, the extraction rule is applied when
one is present — a `version` group used verbatim, the named component
groups assembled otherwise — failing when the pattern does not match, and
the leading marker character is then normalized; with no rule this is
exactly `utils.NormalizeSemverPrefix` from the sources
(`normalizeSemverNoRegex`). -/
def normalizeSemverWithRegex (re : Option Rgx) (v : String) :
    String × Option VErr :=
  match re with
  | none => (normalizeSemverNoRegex v, none)
  | some r =>
    match r.find v with
    | none => ("", some .noRegexMatch)
    | some g =>
      (canonMark (if g.version = "" then canonicalWithRegex g else g.version),
        none)

/-- The body of `UpdateKustomizationImages` for one matched image entry:
build the updater options from the config (`WithTransform` when a tag
regex is configured; a parsed config's strategy is always the default
`FullUpdate`, so no strategy option is added), normalize the current
`newTag` through the optional regex when non-empty (aborting the filter
when that fails), resolve the latest tag against the fixed source list,
abort on a resolver error, leave the entry alone on an empty result,
otherwise set `newTag`. -/
def updateImageEntry (cfgs : List (String × ImageCfg)) (tagsOf : String → List String)
    (e : ImageEntry) : Except KioErr ImageEntry :=
  match cfgLookup cfgs e.name with
  | none => .ok e
  | some cfg =>
    match (if e.newTag ≠ "" then normalizeSemverWithRegex cfg.tagRegex e.newTag
           else ("", none)) with
    | (_, some err) => .error (.normalize err)
    | (baseline, none) =>
      match FindLatestTag baseline (tagsOf e.newName) cfg.excludeTags
          ⟨cfg.tagRegex, none⟩ with
      | (_, some err) => .error (.resolve err)
      | (latest, none) =>
        if latest = "" then .ok e
        else .ok { e with newTag := latest }

/-- `UpdateKustomizationImages` over the document's image entries: process
them in order, aborting on the first error. -/
def updateKustomizationImages (cfgs : List (String × ImageCfg))
    (tagsOf : String → List String) :
    List ImageEntry → Except KioErr (List ImageEntry)
  | [] => .ok []
  | e :: rest =>
    match updateImageEntry cfgs tagsOf e with
    | .error err => .error err
    | .ok e' =>
      match updateKustomizationImages cfgs tagsOf rest with
      | .error err => .error err
      | .ok rest' => .ok (e' :: rest')

/-! ## `KustomizationImagesConfig.UnmarshalJSON` (strategy parsing) -/

/-- Go `strings.ToLower` restricted to the ASCII range the comparison can
ever meet: uppercase ASCII letters gain 32, everything else is kept. -/
def lowerChar (c : Char) : Char :=
  if 'A' ≤ c ∧ c ≤ 'Z' then Char.ofNat (c.toNat + 32) else c

/-- `strings.ToLower` on a whole string. -/
def goToLower (s : String) : String := ⟨s.data.map lowerChar⟩

/-- The raw JSON fields of one images-annotation entry, after
`json.Unmarshal` into the anonymous struct. -/
structure RawImagesConfig where
  name : String := ""
  tagRegex : String := ""
  excludeTags : List String := []
  updateStrategy : String := ""

/-- The parsed `KustomizationImagesConfig` (the compiled regex is kept as
its pattern text). -/
structure ImagesConfig where
  name : String
  tagRegexPat : Option String
  excludeTags : List String
  strategyType : StrategyType

/-- The body of `KustomizationImagesConfig.UnmarshalJSON` after the JSON
decode: compile the tag regex when present (`compileOk` abstracts
`regexp.Compile` succeeding), build the exclusion set, and parse the
update strategy by lowercasing it and comparing against the mixed-case
literals `"FullUpdate"`, `"MinorUpdate"`, `"PatchUpdate"`. -/
def unmarshalImagesConfig (compileOk : String → Bool) (raw : RawImagesConfig) :
    Except String ImagesConfig :=
  let pat? : Except String (Option String) :=
    if raw.tagRegex ≠ "" then
      if compileOk raw.tagRegex then .ok (some raw.tagRegex)
      else .error "invalid tag-regex"
    else .ok none
  match pat? with
  | .error e => .error e
  | .ok pat =>
    let strat? : Except String StrategyType :=
      if raw.updateStrategy ≠ "" then
        if goToLower raw.updateStrategy = "FullUpdate" then .ok .FullUpdate
        else if goToLower raw.updateStrategy = "MinorUpdate" then .ok .MinorUpdate
        else if goToLower raw.updateStrategy = "PatchUpdate" then .ok .PatchUpdate
        else .error "invalid update-strategy"
      else .ok .FullUpdate
    match strat? with
    | .error e => .error e
    | .ok st => .ok ⟨raw.name, pat, raw.excludeTags, st⟩

/-! ## Concrete transform regexes used as test inputs

Each is the observable behavior of a genuine Go regexp with named capture
groups, implemented as a total matcher. -/

/-- The matcher of
`^(?P<major>[0-9]+)\.(?P<minor>[0-9]+)\.(?P<patch>[0-9]+)\+(?P<build>[a-z]+)$`:
three dot-separated digit runs, then `'+'` and a lowercase run captured as
the `build` group. -/
def buildTagRegex : Rgx :=
  ⟨fun s =>
    match splitDots s.data with
    | [maj, min, rest] =>
      let pat := rest.takeWhile (· ≠ '+')
      match rest.dropWhile (· ≠ '+') with
      | '+' :: bld =>
        if maj ≠ [] ∧ maj.all isDigit ∧ min ≠ [] ∧ min.all isDigit ∧
            pat ≠ [] ∧ pat.all isDigit ∧ bld ≠ [] ∧
            bld.all (fun c => 'a' ≤ c ∧ c ≤ 'z') then
          some { major := ⟨maj⟩, minor := ⟨min⟩, patch := ⟨pat⟩, build := ⟨bld⟩ }
        else none
      | _ => none
    | _ => none⟩

/-- The matcher of `^(?:(?P<major>latest)|v(?P<minor>[0-9]+))$`: the word
`latest` populates the `major` group, a `v`-prefixed digit run populates
the `minor` group. -/
def latestOrMinorRegex : Rgx :=
  ⟨fun s =>
    if s = "latest" then some { major := "latest" }
    else
      match s.data with
      | 'v' :: rest =>
        if rest ≠ [] ∧ rest.all isDigit then some { minor := ⟨rest⟩ } else none
      | _ => none⟩

/-- The matcher of
`^(?P<version>v1\.0\.0)$|^t(?P<major>2)\.(?P<minor>5)\.(?P<patch>0)cc$`:
two anchored alternatives made of literals, the first populating the
`version` group on exactly `v1.0.0`, the second populating the numeric
groups on exactly `t2.5.0cc`; every other string fails to match. -/
def twoFormRegex : Rgx :=
  ⟨fun s =>
    if s = "v1.0.0" then some { version := "v1.0.0" }
    else if s = "t2.5.0cc" then some { major := "2", minor := "5", patch := "0" }
    else none⟩

/-! ## Lemmas about the leading-marker normalization -/

theorem canonMarkL_head (l : List Char) : ∃ r, canonMarkL l = 'v' :: r := by
  cases l with
  | nil => exact ⟨[], rfl⟩
  | cons c r =>
    by_cases h1 : c = 'V'
    · exact ⟨r, by simp [canonMarkL, h1]⟩
    · by_cases h2 : c = 'v'
      · exact ⟨r, by simp [canonMarkL, h1, h2]⟩
      · exact ⟨c :: r, by simp [canonMarkL, h1, h2]⟩

theorem canonMarkL_idem (l : List Char) : canonMarkL (canonMarkL l) = canonMarkL l := by
  obtain ⟨r, hr⟩ := canonMarkL_head l
  rw [hr]
  simp [canonMarkL]

theorem canonMark_data (s : String) : (canonMark s).data = canonMarkL s.data := rfl

theorem canonMark_idem (s : String) : canonMark (canonMark s) = canonMark s := by
  apply String.ext
  show canonMarkL (canonMarkL s.data) = canonMarkL s.data
  exact canonMarkL_idem s.data

theorem canonMark_ne_latest (s : String) : canonMark s ≠ "latest" := by
  intro h
  have hd : (canonMark s).data = "latest".data := by rw [h]
  rw [canonMark_data] at hd
  obtain ⟨r, hr⟩ := canonMarkL_head s.data
  rw [hr] at hd
  have h0 := congrArg List.head? hd
  simp at h0

theorem canonMark_ne_empty (s : String) : canonMark s ≠ "" := by
  intro h
  have hd : (canonMark s).data = ("" : String).data := by rw [h]
  rw [canonMark_data] at hd
  obtain ⟨r, hr⟩ := canonMarkL_head s.data
  rw [hr] at hd
  simp at hd

/-! ## Order lemmas for the `x/mod/semver` comparators -/

theorem lexLt_irrefl (l : List Char) : lexLt l l = false := by
  induction l with
  | nil => rfl
  | cons a as ih => simp [lexLt, ih]

theorem lexLt_trans {x y z : List Char} (h1 : lexLt x y = true)
    (h2 : lexLt y z = true) : lexLt x z = true := by
  induction x generalizing y z with
  | nil =>
    cases y with
    | nil => simp [lexLt] at h1
    | cons b bs =>
      cases z with
      | nil => simp [lexLt] at h2
      | cons c cs => simp [lexLt]
  | cons a as ih =>
    cases y with
    | nil => simp [lexLt] at h1
    | cons b bs =>
      cases z with
      | nil => simp [lexLt] at h2
      | cons c cs =>
        simp only [lexLt] at h1 h2 ⊢
        split at h1
        · -- a < b
          rename_i hab
          split at h2
          · rename_i hbc
            simp [lt_trans hab hbc]
          · split at h2
            · rename_i hbc' hbc
              subst hbc
              simp [hab]
            · exact absurd h2 (by simp)
        · split at h1
          · -- a = b
            rename_i hab' hab
            subst hab
            split at h2
            · rename_i hbc
              simp [hbc]
            · split at h2
              · rename_i hbc' hbc
                subst hbc
                simp only [if_neg hab', if_pos rfl]
                exact ih h1 h2
              · exact absurd h2 (by simp)
          · exact absurd h1 (by simp)

theorem lexLt_total {x y : List Char} (hne : x ≠ y) :
    lexLt x y = true ∨ lexLt y x = true := by
  induction x generalizing y with
  | nil =>
    cases y with
    | nil => exact absurd rfl hne
    | cons b bs => left; simp [lexLt]
  | cons a as ih =>
    cases y with
    | nil => right; simp [lexLt]
    | cons b bs =>
      by_cases hab : a = b
      · subst hab
        have : as ≠ bs := fun h => hne (by rw [h])
        rcases ih this with h | h
        · left; simp [lexLt, lexLt_irrefl, h]
        · right; simp [lexLt, lexLt_irrefl, h]
      · rcases lt_or_gt_of_ne hab with h | h
        · left; simp [lexLt, h]
        · right; simp [lexLt, h]

theorem lexLt_asymm {x y : List Char} (h : lexLt x y = true) :
    lexLt y x = false := by
  by_contra hc
  have h2 : lexLt y x = true := by
    cases e : lexLt y x
    · exact absurd e hc
    · rfl
  have := lexLt_trans h h2
  rw [lexLt_irrefl] at this
  exact Bool.noConfusion this

theorem cmpInt_refl (x : List Char) : cmpInt x x = 0 := by simp [cmpInt]

theorem cmpInt_eq_zero {x y : List Char} (h : cmpInt x y = 0) : x = y := by
  by_contra hne
  unfold cmpInt at h
  rw [if_neg hne] at h
  split at h
  · exact absurd h (by decide)
  · split at h
    · exact absurd h (by decide)
    · split at h
      · exact absurd h (by decide)
      · exact absurd h (by decide)

theorem cmpInt_neg_iff {x y : List Char} :
    cmpInt x y < 0 ↔
      x.length < y.length ∨ (x.length = y.length ∧ lexLt x y = true) := by
  unfold cmpInt
  split_ifs with he h1 h2 h3
  · subst he
    simp [lexLt_irrefl]
  · simp [h1]
  · constructor
    · intro h; exact absurd h (by decide)
    · rintro (h | ⟨h, _⟩)
      · exact absurd h h1
      · omega
  · have hlen : x.length = y.length := by omega
    simp [hlen, h3]
  · have hlen : x.length = y.length := by omega
    constructor
    · intro h; exact absurd h (by decide)
    · rintro (h | ⟨_, h⟩)
      · omega
      · exact absurd h h3

theorem cmpInt_flip (x y : List Char) : cmpInt x y = -cmpInt y x := by
  unfold cmpInt
  by_cases he : x = y
  · subst he; simp
  · have he' : y ≠ x := fun h => he h.symm
    rw [if_neg he, if_neg he']
    by_cases h1 : x.length < y.length
    · rw [if_pos h1, if_neg (by omega : ¬ y.length < x.length), if_pos h1]
    · rw [if_neg h1]
      by_cases h2 : y.length < x.length
      · rw [if_pos h2, if_pos h2]; decide
      · rw [if_neg h2, if_neg h2, if_neg h1]
        cases hxy : lexLt x y
        · have := lexLt_total he
          rcases this with h | h
          · exact absurd h (by simp [hxy])
          · simp [h]
        · have := lexLt_asymm hxy
          simp [this]

theorem cmpInt_pos_iff {x y : List Char} : 0 < cmpInt x y ↔ cmpInt y x < 0 := by
  rw [cmpInt_flip x y]
  omega

theorem cmpInt_trans_neg {x y z : List Char} (h1 : cmpInt x y < 0)
    (h2 : cmpInt y z < 0) : cmpInt x z < 0 := by
  rw [cmpInt_neg_iff] at h1 h2 ⊢
  rcases h1 with h1 | ⟨h1e, h1l⟩
  · rcases h2 with h2 | ⟨h2e, _⟩
    · left; omega
    · left; omega
  · rcases h2 with h2 | ⟨h2e, h2l⟩
    · left; omega
    · right; exact ⟨by omega, lexLt_trans h1l h2l⟩


def identLtB (x y : List Char) : Bool :=
  if isNum x then
    if isNum y then
      if x.length < y.length then true
      else if y.length < x.length then false
      else lexLt x y
    else true
  else if isNum y then false else lexLt x y

theorem cmpIdent_neg_iff (x y : List Char) :
    cmpIdent x y < 0 ↔ identLtB x y = true := by
  unfold cmpIdent identLtB
  split_ifs <;> first | omega | simp_all

theorem cmpIdent_ne_zero (x y : List Char) : cmpIdent x y ≠ 0 := by
  unfold cmpIdent
  split_ifs <;> decide

theorem cmpIdent_pos_iff (x y : List Char) :
    0 < cmpIdent x y ↔ identLtB x y = false := by
  constructor
  · intro h
    cases e : identLtB x y
    · rfl
    · have := (cmpIdent_neg_iff x y).2 e
      omega
  · intro h
    have hne := cmpIdent_ne_zero x y
    have h2 : ¬ cmpIdent x y < 0 := fun hc => by
      rw [cmpIdent_neg_iff, h] at hc
      exact Bool.noConfusion hc
    omega

theorem identLtB_total {x y : List Char} (hne : x ≠ y) :
    identLtB x y = true ∨ identLtB y x = true := by
  unfold identLtB
  split_ifs <;>
    first
      | (left; rfl)
      | (right; rfl)
      | omega
      | exact lexLt_total hne

theorem identLtB_asymm {x y : List Char} (h : identLtB x y = true) :
    identLtB y x = false := by
  unfold identLtB at h ⊢
  split_ifs at h ⊢ <;>
    first
      | rfl
      | omega
      | exact lexLt_asymm h

theorem identLtB_trans {x y z : List Char} (h1 : identLtB x y = true)
    (h2 : identLtB y z = true) : identLtB x z = true := by
  unfold identLtB at h1 h2 ⊢
  split_ifs at h1 h2 ⊢ <;>
    first
      | rfl
      | omega
      | exact lexLt_trans h1 h2



theorem cmpIdent_cases (x y : List Char) : cmpIdent x y = -1 ∨ cmpIdent x y = 1 := by
  unfold cmpIdent
  split_ifs <;> simp

theorem cmpIdent_eq_neg_one {x y : List Char} (h : identLtB x y = true) :
    cmpIdent x y = -1 := by
  have := (cmpIdent_neg_iff x y).2 h
  rcases cmpIdent_cases x y with e | e
  · exact e
  · omega

theorem cmpIdent_eq_one {x y : List Char} (h : identLtB x y = false) :
    cmpIdent x y = 1 := by
  rcases cmpIdent_cases x y with e | e
  · have h2 := (cmpIdent_neg_iff x y).1 (by omega)
    rw [h2] at h
    exact absurd h (by simp)
  · exact e

theorem cmpIdentList_ne_zero (xs ys : List (List Char)) :
    cmpIdentList xs ys ≠ 0 := by
  induction xs generalizing ys with
  | nil => cases ys <;> simp [cmpIdentList]
  | cons x xs ih =>
    cases ys with
    | nil => simp [cmpIdentList]
    | cons y ys =>
      unfold cmpIdentList
      split_ifs with h
      · exact ih ys
      · exact cmpIdent_ne_zero x y

theorem cmpIdentList_flip {xs ys : List (List Char)} (hne : xs ≠ ys) :
    cmpIdentList xs ys = -cmpIdentList ys xs := by
  induction xs generalizing ys with
  | nil =>
    cases ys with
    | nil => exact absurd rfl hne
    | cons y ys => simp [cmpIdentList]
  | cons x xs ih =>
    cases ys with
    | nil => simp [cmpIdentList]
    | cons y ys =>
      unfold cmpIdentList
      by_cases hxy : x = y
      · subst hxy
        rw [if_pos rfl, if_pos rfl]
        exact ih (fun he => hne (by rw [he]))
      · rw [if_neg hxy, if_neg (fun he => hxy he.symm)]
        cases e : identLtB x y
        · rw [cmpIdent_eq_one e]
          rcases identLtB_total hxy with h | h
          · rw [h] at e
            exact absurd e (by simp)
          · rw [cmpIdent_eq_neg_one h]
            decide
        · rw [cmpIdent_eq_neg_one e, cmpIdent_eq_one (identLtB_asymm e)]

theorem cmpIdentList_trans {xs ys zs : List (List Char)}
    (h1 : cmpIdentList xs ys < 0) (h2 : cmpIdentList ys zs < 0) :
    cmpIdentList xs zs < 0 := by
  induction xs generalizing ys zs with
  | nil => cases zs <;> simp [cmpIdentList]
  | cons x xs ih =>
    cases ys with
    | nil => simp [cmpIdentList] at h1
    | cons y ys =>
      cases zs with
      | nil => simp [cmpIdentList] at h2
      | cons z zs =>
        unfold cmpIdentList at h1 h2 ⊢
        by_cases hxy : x = y <;> by_cases hyz : y = z
        · subst hxy; subst hyz
          rw [if_pos rfl] at h1 h2 ⊢
          exact ih h1 h2
        · subst hxy
          rw [if_pos rfl] at h1
          rw [if_neg hyz] at h2 ⊢
          exact h2
        · subst hyz
          rw [if_pos rfl] at h2
          rw [if_neg hxy] at h1 ⊢
          exact h1
        · rw [if_neg hxy] at h1
          rw [if_neg hyz] at h2
          have l1 := (cmpIdent_neg_iff x y).1 h1
          have l2 := (cmpIdent_neg_iff y z).1 h2
          have l3 := identLtB_trans l1 l2
          have hxz : x ≠ z := by
            intro he
            subst he
            rw [identLtB_asymm l1] at l2
            exact Bool.noConfusion l2
          rw [if_neg hxz]
          exact (cmpIdent_neg_iff x z).2 l3

/-- Rejoin a dot-split: the retraction of `splitDots`. -/
def joinDots : List (List Char) → List Char
  | [] => []
  | [s] => s
  | s :: t :: rest => s ++ '.' :: joinDots (t :: rest)

theorem splitDots_ne_nil (l : List Char) : splitDots l ≠ [] := by
  cases l with
  | nil => simp [splitDots]
  | cons c r =>
    unfold splitDots
    split_ifs
    · simp
    · cases e : splitDots r <;> simp

theorem joinDots_splitDots (l : List Char) : joinDots (splitDots l) = l := by
  induction l with
  | nil => rfl
  | cons c r ih =>
    unfold splitDots
    split_ifs with hc
    · subst hc
      cases e : splitDots r with
      | nil => exact absurd e (splitDots_ne_nil r)
      | cons s rest =>
        rw [e] at ih
        show joinDots ([] :: s :: rest) = '.' :: r
        unfold joinDots
        simp only [List.nil_append]
        rw [ih]
    · cases e : splitDots r with
      | nil => exact absurd e (splitDots_ne_nil r)
      | cons s rest =>
        rw [e] at ih
        cases rest with
        | nil =>
          show joinDots [c :: s] = c :: r
          show c :: s = c :: r
          rw [show joinDots [s] = s from rfl] at ih
          rw [ih]
        | cons t rest2 =>
          show joinDots ((c :: s) :: t :: rest2) = c :: r
          rw [← ih]
          show (c :: s) ++ '.' :: joinDots (t :: rest2) = c :: joinDots (s :: t :: rest2)
          show c :: (s ++ '.' :: joinDots (t :: rest2)) = c :: joinDots (s :: t :: rest2)
          rfl

theorem splitDots_inj {a b : List Char} (h : splitDots a = splitDots b) : a = b := by
  have ha := joinDots_splitDots a
  have hb := joinDots_splitDots b
  rw [← ha, ← hb, h]

/-- The prerelease fields produced by the parser: empty or `'-'`-headed. -/
def Dashed (l : List Char) : Prop := l = [] ∨ ∃ r, l = '-' :: r

theorem cmpPre_refl (x : List Char) : cmpPre x x = 0 := by simp [cmpPre]

theorem cmpPre_zero_iff {x y : List Char} : cmpPre x y = 0 ↔ x = y := by
  constructor
  · intro h
    unfold cmpPre at h
    split_ifs at h with h1 h2 h3
    · exact h1
    · exact absurd h (by decide)
    · exact (cmpIdentList_ne_zero (splitDots (x.drop 1)) (splitDots (y.drop 1)) h).elim
  · intro h
    subst h
    exact cmpPre_refl x

theorem cmpPre_flip {x y : List Char} (hx : Dashed x) (hy : Dashed y) :
    cmpPre x y = -cmpPre y x := by
  by_cases he : x = y
  · subst he
    rw [cmpPre_refl]
    decide
  · have he' : y ≠ x := fun h => he h.symm
    unfold cmpPre
    rw [if_neg he, if_neg he']
    by_cases hx0 : x = []
    · have hy0 : y ≠ [] := fun h => he (by rw [hx0, h])
      rw [if_pos hx0, if_neg hy0, if_pos hx0]
      decide
    · by_cases hy0 : y = []
      · rw [if_neg hx0, if_pos hy0, if_pos hy0]
      · rw [if_neg hx0, if_neg hy0, if_neg hy0, if_neg hx0]
        rcases hx with hx' | ⟨bx, hbx⟩
        · exact absurd hx' hx0
        rcases hy with hy' | ⟨by_, hby⟩
        · exact absurd hy' hy0
        subst hbx; subst hby
        have hbne : bx ≠ by_ := fun h => he (by rw [h])
        have hsp : splitDots (('-' :: bx : List Char).drop 1) ≠
            splitDots (('-' :: by_ : List Char).drop 1) := by
          simp only [List.drop_succ_cons, List.drop_zero]
          exact fun h => hbne (splitDots_inj h)
        exact cmpIdentList_flip hsp

theorem cmpPre_trans {x y z : List Char} (hy : Dashed y) (hz : Dashed z)
    (h1 : cmpPre x y < 0) (h2 : cmpPre y z < 0) : cmpPre x z < 0 := by
  have hxy : x ≠ y := by
    intro he
    rw [he, cmpPre_refl] at h1
    omega
  have hyz : y ≠ z := by
    intro he
    rw [he, cmpPre_refl] at h2
    omega
  have hx0 : x ≠ [] := by
    intro he
    unfold cmpPre at h1
    rw [if_neg hxy, if_pos he] at h1
    omega
  have hy0 : y ≠ [] := by
    intro he
    unfold cmpPre at h2
    rw [if_neg hyz, if_pos he] at h2
    omega
  have h1' : cmpIdentList (splitDots (x.drop 1)) (splitDots (y.drop 1)) < 0 := by
    unfold cmpPre at h1
    rwa [if_neg hxy, if_neg hx0, if_neg hy0] at h1
  by_cases hz0 : z = []
  · have hxz : x ≠ z := by rw [hz0]; exact hx0
    unfold cmpPre
    rw [if_neg hxz, if_neg hx0, if_pos hz0]
    decide
  · have h2' : cmpIdentList (splitDots (y.drop 1)) (splitDots (z.drop 1)) < 0 := by
      unfold cmpPre at h2
      rwa [if_neg hyz, if_neg hy0, if_neg hz0] at h2
    have hxz : x ≠ z := by
      intro he
      rw [he] at h1'
      have hsp : splitDots (z.drop 1) ≠ splitDots (y.drop 1) := by
        intro hsp'
        have hd : z.drop 1 = y.drop 1 := splitDots_inj hsp'
        rcases hy with hy' | ⟨by_, hby⟩
        · exact hy0 hy'
        rcases hz with hz' | ⟨bz, hbz⟩
        · exact hz0 hz'
        rw [hby, hbz] at hd
        simp only [List.drop_succ_cons, List.drop_zero] at hd
        exact hyz (by rw [hby, hbz, hd])
      have hfl := cmpIdentList_flip hsp
      omega
    unfold cmpPre
    rw [if_neg hxz, if_neg hx0, if_neg hz0]
    exact cmpIdentList_trans h1' h2'



theorem parseIntL_spec {l t r : List Char} (h : parseIntL l = some (t, r)) :
    l = t ++ r ∧ t ≠ [] := by
  cases l with
  | nil => simp [parseIntL] at h
  | cons c cs =>
    simp only [parseIntL] at h
    split_ifs at h with hd hz
    simp only [Option.some.injEq, Prod.mk.injEq] at h
    obtain ⟨ht, hr⟩ := h
    subst ht
    subst hr
    constructor
    · exact (List.takeWhile_append_dropWhile (p := isDigit) (l := c :: cs)).symm
    · rw [List.takeWhile_cons_of_pos hd]
      simp

theorem parsePreL_spec {l t r : List Char} (h : parsePreL l = some (t, r)) :
    ∃ body, t = '-' :: body ∧ l = '-' :: (body ++ r) := by
  cases l with
  | nil => simp [parsePreL] at h
  | cons c cs =>
    simp only [parsePreL] at h
    split_ifs at h with hdash hval
    simp only [Option.some.injEq, Prod.mk.injEq] at h
    obtain ⟨ht, hr⟩ := h
    subst hdash
    refine ⟨cs.takeWhile (· ≠ '+'), ht.symm, ?_⟩
    rw [← hr]
    rw [List.takeWhile_append_dropWhile]

theorem parseBldL_spec {l t r : List Char} (h : parseBldL l = some (t, r)) :
    r = [] ∧ l = t ∧ ∃ body, t = '+' :: body := by
  cases l with
  | nil => simp [parseBldL] at h
  | cons c cs =>
    simp only [parseBldL] at h
    split_ifs at h with hplus hval
    simp only [Option.some.injEq, Prod.mk.injEq] at h
    obtain ⟨ht, hr⟩ := h
    subst hplus
    exact ⟨hr.symm, by rw [← ht], ⟨cs, ht.symm⟩⟩

theorem parseSemL_spec {l : List Char} {p : SemParsed} (h : parseSemL l = some p) :
    (p.short = ['.', '0', '.', '0'] ∧ p.minor = ['0'] ∧ p.patch = ['0'] ∧
      p.prerelease = [] ∧ p.build = [] ∧ l = 'v' :: p.major) ∨
    (p.short = ['.', '0'] ∧ p.patch = ['0'] ∧ p.prerelease = [] ∧ p.build = [] ∧
      l = 'v' :: p.major ++ '.' :: p.minor) ∨
    (p.short = [] ∧ (p.prerelease = [] ∨ ∃ b, p.prerelease = '-' :: b) ∧
      l = 'v' :: p.major ++ '.' :: p.minor ++ '.' :: p.patch ++
        p.prerelease ++ p.build) := by
  cases l with
  | nil => simp [parseSemL] at h
  | cons c0 rest =>
    simp only [parseSemL] at h
    split_ifs at h with hv
    subst hv
    cases hmaj : parseIntL rest with
    | none => simp only [hmaj] at h; exact absurd h (by simp)
    | some pr =>
      obtain ⟨maj, r1⟩ := pr
      simp only [hmaj] at h
      obtain ⟨hrest, -⟩ := parseIntL_spec hmaj
      cases r1 with
      | nil =>
        simp only [Option.some.injEq] at h
        subst h
        left
        refine ⟨rfl, rfl, rfl, rfl, rfl, ?_⟩
        simp only []
        rw [hrest]
        simp
      | cons c1 r2 =>
        simp only [] at h
        split_ifs at h with hdot
        subst hdot
        cases hmin : parseIntL r2 with
        | none => simp only [hmin] at h; exact absurd h (by simp)
        | some pr2 =>
          obtain ⟨min, r3⟩ := pr2
          simp only [hmin] at h
          obtain ⟨hr2, -⟩ := parseIntL_spec hmin
          cases r3 with
          | nil =>
            simp only [Option.some.injEq] at h
            subst h
            right; left
            refine ⟨rfl, rfl, rfl, rfl, ?_⟩
            simp only []
            rw [hrest, hr2]
            simp
          | cons c2 r4 =>
            simp only [] at h
            split_ifs at h with hdot2
            subst hdot2
            cases hpat : parseIntL r4 with
            | none => simp only [hpat] at h; exact absurd h (by simp)
            | some pr3 =>
              obtain ⟨pat, r5⟩ := pr3
              simp only [hpat] at h
              obtain ⟨hr4, -⟩ := parseIntL_spec hpat
              by_cases hpre : r5.head? = some '-'
              · rw [if_pos hpre] at h
                cases hprel : parsePreL r5 with
                | none => simp only [hprel] at h; exact absurd h (by simp)
                | some pr4 =>
                  obtain ⟨pre, r6⟩ := pr4
                  simp only [hprel] at h
                  obtain ⟨body, hpre_eq, hr5⟩ := parsePreL_spec hprel
                  by_cases hbld : r6.head? = some '+'
                  · rw [if_pos hbld] at h
                    cases hbldl : parseBldL r6 with
                    | none => simp only [hbldl] at h; exact absurd h (by simp)
                    | some pr5 =>
                      obtain ⟨bld, r7⟩ := pr5
                      simp only [hbldl] at h
                      obtain ⟨hr7, hr6, body2, hbld_eq⟩ := parseBldL_spec hbldl
                      subst hr7
                      simp only [ite_true, if_true, Option.some.injEq] at h
                      subst h
                      right; right
                      refine ⟨rfl, Or.inr ⟨body, hpre_eq⟩, ?_⟩
                      simp only []
                      rw [hrest, hr2, hr4, hr5, hpre_eq, ← hr6]
                      simp
                  · rw [if_neg hbld] at h
                    simp only [] at h
                    split_ifs at h with hr6nil
                    simp only [Option.some.injEq] at h
                    subst h
                    right; right
                    refine ⟨rfl, Or.inr ⟨body, hpre_eq⟩, ?_⟩
                    simp only []
                    rw [hrest, hr2, hr4, hr5, hpre_eq, hr6nil]
                    simp
              · rw [if_neg hpre] at h
                simp only [] at h
                by_cases hbld : r5.head? = some '+'
                · rw [if_pos hbld] at h
                  cases hbldl : parseBldL r5 with
                  | none => simp only [hbldl] at h; exact absurd h (by simp)
                  | some pr5 =>
                    obtain ⟨bld, r7⟩ := pr5
                    simp only [hbldl] at h
                    obtain ⟨hr7, hr5, body2, hbld_eq⟩ := parseBldL_spec hbldl
                    subst hr7
                    simp only [ite_true, if_true, Option.some.injEq] at h
                    subst h
                    right; right
                    refine ⟨rfl, Or.inl rfl, ?_⟩
                    simp only []
                    rw [hrest, hr2, hr4, ← hr5]
                    simp
                · rw [if_neg hbld] at h
                  simp only [] at h
                  split_ifs at h with hr5nil
                  simp only [Option.some.injEq] at h
                  subst h
                  right; right
                  refine ⟨rfl, Or.inl rfl, ?_⟩
                  simp only []
                  rw [hrest, hr2, hr4, hr5nil]
                  simp

theorem parseSemL_pre_dashed {l : List Char} {p : SemParsed}
    (h : parseSemL l = some p) : Dashed p.prerelease := by
  rcases parseSemL_spec h with ⟨-, -, -, hp, -⟩ | ⟨-, -, hp, -⟩ | ⟨-, hp, -⟩
  · exact Or.inl hp
  · exact Or.inl hp
  · exact hp



/-- The component chain of `semCmp` on two parsed versions. -/
def keyCmp (p q : SemParsed) : Int :=
  if cmpInt p.major q.major ≠ 0 then cmpInt p.major q.major
  else if cmpInt p.minor q.minor ≠ 0 then cmpInt p.minor q.minor
  else if cmpInt p.patch q.patch ≠ 0 then cmpInt p.patch q.patch
  else cmpPre p.prerelease q.prerelease

theorem semCmp_eq_keyCmp {a b : String} {p q : SemParsed}
    (ha : parseSemL a.data = some p) (hb : parseSemL b.data = some q) :
    semCmp a b = keyCmp p q := by
  unfold semCmp keyCmp
  rw [ha, hb]

theorem semCmp_none_some {a b : String} {q : SemParsed}
    (ha : parseSemL a.data = none) (hb : parseSemL b.data = some q) :
    semCmp a b = -1 := by
  unfold semCmp
  rw [ha, hb]

theorem semCmp_some_none {a b : String} {p : SemParsed}
    (ha : parseSemL a.data = some p) (hb : parseSemL b.data = none) :
    semCmp a b = 1 := by
  unfold semCmp
  rw [ha, hb]

theorem semCmp_none_none {a b : String}
    (ha : parseSemL a.data = none) (hb : parseSemL b.data = none) :
    semCmp a b = 0 := by
  unfold semCmp
  rw [ha, hb]

theorem keyCmp_refl (p : SemParsed) : keyCmp p p = 0 := by
  unfold keyCmp
  simp [cmpInt_refl, cmpPre_refl]

theorem semCmp_refl (a : String) : semCmp a a = 0 := by
  cases h : parseSemL a.data with
  | none => exact semCmp_none_none h h
  | some p => rw [semCmp_eq_keyCmp h h, keyCmp_refl]

theorem keyCmp_zero {p q : SemParsed} (h : keyCmp p q = 0) :
    p.major = q.major ∧ p.minor = q.minor ∧ p.patch = q.patch ∧
      p.prerelease = q.prerelease := by
  unfold keyCmp at h
  split_ifs at h with h1 h2 h3
  · exact absurd h h1
  · exact absurd h h2
  · exact absurd h h3
  · exact ⟨cmpInt_eq_zero (of_not_not h1), cmpInt_eq_zero (of_not_not h2),
      cmpInt_eq_zero (of_not_not h3), cmpPre_zero_iff.1 h⟩

theorem keyCmp_flip {p q : SemParsed} (hp : Dashed p.prerelease)
    (hq : Dashed q.prerelease) : keyCmp p q = -keyCmp q p := by
  have hz : ¬ ((0 : Int) ≠ 0) := by simp
  unfold keyCmp
  by_cases h1 : cmpInt p.major q.major = 0
  · have e1 : p.major = q.major := cmpInt_eq_zero h1
    rw [e1, cmpInt_refl, if_neg hz, if_neg hz]
    by_cases h2 : cmpInt p.minor q.minor = 0
    · have e2 : p.minor = q.minor := cmpInt_eq_zero h2
      rw [e2, cmpInt_refl, if_neg hz, if_neg hz]
      by_cases h3 : cmpInt p.patch q.patch = 0
      · have e3 : p.patch = q.patch := cmpInt_eq_zero h3
        rw [e3, cmpInt_refl, if_neg hz, if_neg hz]
        exact cmpPre_flip hp hq
      · have h3' : cmpInt q.patch p.patch ≠ 0 := by
          rw [cmpInt_flip q.patch p.patch]
          omega
        rw [if_pos h3, if_pos h3']
        exact cmpInt_flip p.patch q.patch
    · have h2' : cmpInt q.minor p.minor ≠ 0 := by
        rw [cmpInt_flip q.minor p.minor]
        omega
      rw [if_pos h2, if_pos h2']
      exact cmpInt_flip p.minor q.minor
  · have h1' : cmpInt q.major p.major ≠ 0 := by
      rw [cmpInt_flip q.major p.major]
      omega
    rw [if_pos h1, if_pos h1']
    exact cmpInt_flip p.major q.major

theorem keyCmp_trans_neg {p q r : SemParsed} (hq : Dashed q.prerelease)
    (hr : Dashed r.prerelease) (h1 : keyCmp p q < 0) (h2 : keyCmp q r < 0) :
    keyCmp p r < 0 := by
  have hz : ¬ ((0 : Int) ≠ 0) := by simp
  unfold keyCmp at h1 h2 ⊢
  by_cases e1 : cmpInt p.major q.major = 0
  · have eq1 : p.major = q.major := cmpInt_eq_zero e1
    rw [eq1, cmpInt_refl, if_neg hz] at h1
    rw [eq1]
    by_cases f1 : cmpInt q.major r.major = 0
    · have fq1 : q.major = r.major := cmpInt_eq_zero f1
      rw [fq1, cmpInt_refl, if_neg hz] at h2 ⊢
      by_cases e2 : cmpInt p.minor q.minor = 0
      · have eq2 : p.minor = q.minor := cmpInt_eq_zero e2
        rw [eq2, cmpInt_refl, if_neg hz] at h1
        rw [eq2]
        by_cases f2 : cmpInt q.minor r.minor = 0
        · have fq2 : q.minor = r.minor := cmpInt_eq_zero f2
          rw [fq2, cmpInt_refl, if_neg hz] at h2 ⊢
          by_cases e3 : cmpInt p.patch q.patch = 0
          · have eq3 : p.patch = q.patch := cmpInt_eq_zero e3
            rw [eq3, cmpInt_refl, if_neg hz] at h1
            rw [eq3]
            by_cases f3 : cmpInt q.patch r.patch = 0
            · have fq3 : q.patch = r.patch := cmpInt_eq_zero f3
              rw [fq3, cmpInt_refl, if_neg hz] at h2 ⊢
              exact cmpPre_trans hq hr h1 h2
            · rw [if_pos f3] at h2 ⊢
              exact h2
          · rw [if_pos e3] at h1
            by_cases f3 : cmpInt q.patch r.patch = 0
            · have fq3 : q.patch = r.patch := cmpInt_eq_zero f3
              rw [← fq3, if_pos e3]
              exact h1
            · rw [if_pos f3] at h2
              have g3 := cmpInt_trans_neg h1 h2
              rw [if_pos (by omega : cmpInt p.patch r.patch ≠ 0)]
              exact g3
        · rw [if_pos f2]
          rw [if_pos f2] at h2
          exact h2
      · rw [if_pos e2] at h1
        by_cases f2 : cmpInt q.minor r.minor = 0
        · have fq2 : q.minor = r.minor := cmpInt_eq_zero f2
          rw [← fq2, if_pos e2]
          exact h1
        · rw [if_pos f2] at h2
          have g2 := cmpInt_trans_neg h1 h2
          rw [if_pos (by omega : cmpInt p.minor r.minor ≠ 0)]
          exact g2
    · rw [if_pos f1]
      rw [if_pos f1] at h2
      exact h2
  · rw [if_pos e1] at h1
    by_cases f1 : cmpInt q.major r.major = 0
    · have fq1 : q.major = r.major := cmpInt_eq_zero f1
      rw [← fq1, if_pos e1]
      exact h1
    · rw [if_pos f1] at h2
      have g1 := cmpInt_trans_neg h1 h2
      rw [if_pos (by omega : cmpInt p.major r.major ≠ 0)]
      exact g1



theorem semCmp_flip_s (a b : String) : semCmp a b = -semCmp b a := by
  cases ha : parseSemL a.data with
  | none =>
    cases hb : parseSemL b.data with
    | none =>
      rw [semCmp_none_none ha hb, semCmp_none_none hb ha]
      decide
    | some q => rw [semCmp_none_some ha hb, semCmp_some_none hb ha]
  | some p =>
    cases hb : parseSemL b.data with
    | none =>
      rw [semCmp_some_none ha hb, semCmp_none_some hb ha]
      decide
    | some q =>
      rw [semCmp_eq_keyCmp ha hb, semCmp_eq_keyCmp hb ha]
      exact keyCmp_flip (parseSemL_pre_dashed ha) (parseSemL_pre_dashed hb)

theorem semCmp_trans_lt {a b c : String} (h1 : semCmp a b < 0)
    (h2 : semCmp b c < 0) : semCmp a c < 0 := by
  cases hb : parseSemL b.data with
  | none =>
    cases ha : parseSemL a.data with
    | none => rw [semCmp_none_none ha hb] at h1; omega
    | some p => rw [semCmp_some_none ha hb] at h1; omega
  | some q =>
    cases hc : parseSemL c.data with
    | none => rw [semCmp_some_none hb hc] at h2; omega
    | some r =>
      cases ha : parseSemL a.data with
      | none => rw [semCmp_none_some ha hc]; omega
      | some p =>
        rw [semCmp_eq_keyCmp ha hb] at h1
        rw [semCmp_eq_keyCmp hb hc] at h2
        rw [semCmp_eq_keyCmp ha hc]
        exact keyCmp_trans_neg (parseSemL_pre_dashed hb)
          (parseSemL_pre_dashed hc) h1 h2

theorem semCmp_zero_right_congr {b t : String} (h : semCmp b t = 0)
    (u : String) : semCmp u t = semCmp u b := by
  cases hb : parseSemL b.data with
  | none =>
    cases ht : parseSemL t.data with
    | none =>
      cases hu : parseSemL u.data with
      | none => rw [semCmp_none_none hu ht, semCmp_none_none hu hb]
      | some pu => rw [semCmp_some_none hu ht, semCmp_some_none hu hb]
    | some pt => rw [semCmp_none_some hb ht] at h; omega
  | some q =>
    cases ht : parseSemL t.data with
    | none => rw [semCmp_some_none hb ht] at h; omega
    | some pt =>
      rw [semCmp_eq_keyCmp hb ht] at h
      obtain ⟨e1, e2, e3, e4⟩ := keyCmp_zero h
      cases hu : parseSemL u.data with
      | none => rw [semCmp_none_some hu ht, semCmp_none_some hu hb]
      | some pu =>
        rw [semCmp_eq_keyCmp hu ht, semCmp_eq_keyCmp hu hb]
        unfold keyCmp
        rw [e1, e2, e3, e4]

/-! ## Evaluation lemmas for the updater with no transform regex -/

theorem Canonical_noRegex (v : String) (pol : Option PolicyType) :
    Canonical v ⟨none, pol⟩ = (canonMark v, none) := rfl

theorem TypeOf_noRegex (v : String) (pol : Option PolicyType) :
    TypeOf v ⟨none, pol⟩ = typeFromSem v := rfl

theorem typeFromSem_canonMark (v : String) :
    typeFromSem (canonMark v) = typeFromSem v := by
  unfold typeFromSem
  rw [canonMark_idem]

theorem Compare_noOpts {b u : String} {ty : VersionType} (hb : b ≠ "latest")
    (h1 : TypeOf b {} = (ty, none)) (h2 : TypeOf u {} = (ty, none)) :
    Compare b u {} =
      (if semCmp (canonMark b) (canonMark u) = 0 then .Equal
       else if semCmp (canonMark b) (canonMark u) < 0 then .Greater else .Less,
        none) := by
  unfold Compare
  rw [if_neg hb]
  simp only [h1, h2]
  rw [if_neg (by simp : ¬ (ty ≠ ty))]
  have hc1 : Canonical b ({} : Options) = (canonMark b, none) := rfl
  have hc2 : Canonical u ({} : Options) = (canonMark u, none) := rfl
  simp only [hc1, hc2]
  by_cases hcmp : semCmp (canonMark b) (canonMark u) = 0
  · rw [if_pos hcmp, if_pos hcmp]
  · rw [if_neg hcmp, if_neg hcmp]
    by_cases hlt : semCmp (canonMark b) (canonMark u) < 0
    · rw [if_pos hlt, if_pos hlt]
    · rw [if_neg hlt, if_neg hlt]

theorem Compare_noOpts_err_none {b u : String} (hb : b ≠ "latest")
    (h : (Compare b u {}).2 = none) :
    ∃ ty, TypeOf b {} = (ty, none) ∧ TypeOf u {} = (ty, none) := by
  unfold Compare at h
  rw [if_neg hb] at h
  rcases e1 : TypeOf b ({} : Options) with ⟨tb, eb⟩
  cases eb with
  | some e =>
    simp only [e1] at h
    simp at h
  | none =>
    simp only [e1] at h
    rcases e2 : TypeOf u ({} : Options) with ⟨tu, eu⟩
    cases eu with
    | some e =>
      simp only [e2] at h
      simp at h
    | none =>
      simp only [e2] at h
      by_cases hty : tu = tb
      · subst hty
        exact ⟨tu, rfl, rfl⟩
      · rw [if_pos hty] at h
        simp at h



/-! ## Lemmas about the resolver selection loops -/

theorem findTagLoop_ok (b : String) (ex : List String) (o : Options) :
    ∀ (l : List String) (best r : String),
      findTagLoop b ex o l best = (r, none) →
      (∀ u ∈ l, u ∉ ex → (Compare b u o).2 = none) ∧
      ((r = best ∧ ∀ u ∈ l, u ∉ ex → (Compare b u o).1 = .Less) ∨
        ∃ l1 l2, l = l1 ++ r :: l2 ∧ r ∉ ex ∧ (Compare b r o).2 = none ∧
          (Compare b r o).1 ≠ .Less ∧
          ∀ u ∈ l2, u ∉ ex → (Compare b u o).1 = .Less) := by
  intro l
  induction l with
  | nil =>
    intro best r h
    unfold findTagLoop at h
    simp only [Prod.mk.injEq] at h
    refine ⟨by simp, Or.inl ⟨h.1.symm, by simp⟩⟩
  | cons t rest ih =>
    intro best r h
    unfold findTagLoop at h
    by_cases hmem : t ∈ ex
    · rw [if_pos hmem] at h
      obtain ⟨hok, hcase⟩ := ih best r h
      refine ⟨?_, ?_⟩
      · intro u hu hnex
        rcases List.mem_cons.1 hu with rfl | hu'
        · exact absurd hmem hnex
        · exact hok u hu' hnex
      · rcases hcase with ⟨hr, hless⟩ | ⟨l1, l2, hsplit, hnex, hcok, hcne, hl2⟩
        · refine Or.inl ⟨hr, ?_⟩
          intro u hu hnex
          rcases List.mem_cons.1 hu with rfl | hu'
          · exact absurd hmem hnex
          · exact hless u hu' hnex
        · exact Or.inr ⟨t :: l1, l2, by rw [hsplit, List.cons_append], hnex, hcok, hcne, hl2⟩
    · rw [if_neg hmem] at h
      rcases hc : Compare b t o with ⟨cv, ce⟩
      cases ce with
      | some e =>
        rw [hc] at h
        simp at h
      | none =>
        cases cv with
        | Equal =>
          simp only [hc] at h
          obtain ⟨hok, hcase⟩ := ih t r h
          refine ⟨?_, ?_⟩
          · intro u hu hnex
            rcases List.mem_cons.1 hu with rfl | hu'
            · rw [hc]
            · exact hok u hu' hnex
          · rcases hcase with ⟨hr, hless⟩ | ⟨l1, l2, hsplit, hnex, hcok, hcne, hl2⟩
            · subst hr
              exact Or.inr ⟨[], rest, rfl, hmem, by rw [hc], by rw [hc]; simp, hless⟩
            · exact Or.inr ⟨t :: l1, l2, by rw [hsplit, List.cons_append], hnex, hcok, hcne, hl2⟩
        | Greater =>
          simp only [hc] at h
          obtain ⟨hok, hcase⟩ := ih t r h
          refine ⟨?_, ?_⟩
          · intro u hu hnex
            rcases List.mem_cons.1 hu with rfl | hu'
            · rw [hc]
            · exact hok u hu' hnex
          · rcases hcase with ⟨hr, hless⟩ | ⟨l1, l2, hsplit, hnex, hcok, hcne, hl2⟩
            · subst hr
              exact Or.inr ⟨[], rest, rfl, hmem, by rw [hc], by rw [hc]; simp, hless⟩
            · exact Or.inr ⟨t :: l1, l2, by rw [hsplit, List.cons_append], hnex, hcok, hcne, hl2⟩
        | Less =>
          simp only [hc] at h
          obtain ⟨hok, hcase⟩ := ih best r h
          refine ⟨?_, ?_⟩
          · intro u hu hnex
            rcases List.mem_cons.1 hu with rfl | hu'
            · rw [hc]
            · exact hok u hu' hnex
          · rcases hcase with ⟨hr, hless⟩ | ⟨l1, l2, hsplit, hnex, hcok, hcne, hl2⟩
            · refine Or.inl ⟨hr, ?_⟩
              intro u hu hnex
              rcases List.mem_cons.1 hu with rfl | hu'
              · rw [hc]
              · exact hless u hu' hnex
            · exact Or.inr ⟨t :: l1, l2, by rw [hsplit, List.cons_append], hnex, hcok, hcne, hl2⟩

theorem findTagLoop_no_err (b : String) (ex : List String) (o : Options) :
    ∀ (l : List String) (best : String),
      (∀ u ∈ l, u ∉ ex → (Compare b u o).2 = none) →
      ∃ r, findTagLoop b ex o l best = (r, none) := by
  intro l
  induction l with
  | nil => exact fun best _ => ⟨best, rfl⟩
  | cons t rest ih =>
    intro best hok
    unfold findTagLoop
    by_cases hmem : t ∈ ex
    · rw [if_pos hmem]
      exact ih best (fun u hu => hok u (List.mem_cons_of_mem t hu))
    · rw [if_neg hmem]
      rcases hc : Compare b t o with ⟨cv, ce⟩
      cases ce with
      | some e =>
        have := hok t (List.mem_cons_self t rest) hmem
        rw [hc] at this
        simp at this
      | none =>
        have hrest := fun u hu => hok u (List.mem_cons_of_mem t hu)
        cases cv with
        | Equal => exact ih t hrest
        | Greater => exact ih t hrest
        | Less => exact ih best hrest

theorem findTagLoop_append (b : String) (ex : List String) (o : Options) :
    ∀ (l1 l2 : List String) (best r : String),
      findTagLoop b ex o l1 best = (r, none) →
      findTagLoop b ex o (l1 ++ l2) best = findTagLoop b ex o l2 r := by
  intro l1
  induction l1 with
  | nil =>
    intro l2 best r h
    unfold findTagLoop at h
    simp only [Prod.mk.injEq] at h
    rw [List.nil_append, h.1]
  | cons t rest ih =>
    intro l2 best r h
    unfold findTagLoop at h
    rw [List.cons_append]
    conv_lhs => rw [findTagLoop]
    by_cases hmem : t ∈ ex
    · rw [if_pos hmem] at h ⊢
      exact ih l2 best r h
    · rw [if_neg hmem] at h ⊢
      rcases hc : Compare b t o with ⟨cv, ce⟩
      cases ce with
      | some e =>
        rw [hc] at h
        simp at h
      | none =>
        cases cv with
        | Equal =>
          simp only [hc] at h ⊢
          exact ih l2 t r h
        | Greater =>
          simp only [hc] at h ⊢
          exact ih l2 t r h
        | Less =>
          simp only [hc] at h ⊢
          exact ih l2 best r h

theorem findTagLoop_all_less (b : String) (ex : List String) (o : Options) :
    ∀ (l : List String) (best : String),
      (∀ u ∈ l, u ∉ ex → Compare b u o = (.Less, none)) →
      findTagLoop b ex o l best = (best, none) := by
  intro l
  induction l with
  | nil => exact fun best _ => rfl
  | cons t rest ih =>
    intro best hless
    unfold findTagLoop
    by_cases hmem : t ∈ ex
    · rw [if_pos hmem]
      exact ih best (fun u hu => hless u (List.mem_cons_of_mem t hu))
    · rw [if_neg hmem]
      rw [hless t (List.mem_cons_self t rest) hmem]
      exact ih best (fun u hu => hless u (List.mem_cons_of_mem t hu))

theorem findTagLoop_err (b : String) (ex : List String) (o : Options)
    (t : String) (e : CmpErr) :
    ∀ (l2 : List String) (best : String), t ∉ ex →
      (Compare b t o).2 = some e →
      findTagLoop b ex o (t :: l2) best = ("", some e) := by
  intro l2 best hmem herr
  unfold findTagLoop
  rw [if_neg hmem]
  rcases hc : Compare b t o with ⟨cv, ce⟩
  rw [hc] at herr
  simp only [] at herr
  subst herr
  cases cv <;> rfl

theorem findVersionLoop_eq_findTagLoop (b : String) (ex : List String)
    (o : Options) : ∀ (l : List String) (best : String),
      findVersionLoop b ex o l best = findTagLoop b ex o l best := by
  intro l
  induction l with
  | nil => intro best; rfl
  | cons t rest ih =>
    intro best
    unfold findVersionLoop findTagLoop
    by_cases hmem : t ∈ ex
    · rw [if_pos hmem, if_pos hmem]
      exact ih best
    · rw [if_neg hmem, if_neg hmem]
      rcases hc : Compare b t o with ⟨cv, ce⟩
      cases ce with
      | some e => cases cv <;> rfl
      | none => cases cv <;> exact ih _

theorem specResolveLoop_eq_findTagLoop (b : String) (ex : List String)
    (o : Options) : ∀ (l : List String) (best : String),
      specResolveLoop b ex o l best = findTagLoop b ex o l best := by
  intro l
  induction l with
  | nil => intro best; rfl
  | cons t rest ih =>
    intro best
    unfold specResolveLoop findTagLoop
    by_cases hmem : t ∈ ex
    · rw [if_pos hmem, if_pos hmem]
      exact ih best
    · rw [if_neg hmem, if_neg hmem]
      rcases hc : Compare b t o with ⟨cv, ce⟩
      cases ce with
      | some e => cases cv <;> rfl
      | none =>
        cases cv with
        | Equal =>
          show (if Comparison.Equal = .Equal ∨ Comparison.Equal = .Greater then
              specResolveLoop b ex o rest t else specResolveLoop b ex o rest best) =
            findTagLoop b ex o rest t
          rw [if_pos (by simp)]
          exact ih t
        | Greater =>
          show (if Comparison.Greater = .Equal ∨ Comparison.Greater = .Greater then
              specResolveLoop b ex o rest t else specResolveLoop b ex o rest best) =
            findTagLoop b ex o rest t
          rw [if_pos (by simp)]
          exact ih t
        | Less =>
          show (if Comparison.Less = .Equal ∨ Comparison.Less = .Greater then
              specResolveLoop b ex o rest t else specResolveLoop b ex o rest best) =
            findTagLoop b ex o rest best
          rw [if_neg (by simp)]
          exact ih best

theorem findActionLoop_eq_specSwapped (cur : String) (ex : List String)
    (o : Options) : ∀ (l : List String) (best : String),
      findActionLoop cur ex o l best = specResolveSwappedLoop cur ex o l best := by
  intro l
  induction l with
  | nil => intro best; rfl
  | cons t rest ih =>
    intro best
    unfold findActionLoop specResolveSwappedLoop
    by_cases hmem : t ∈ ex
    · rw [if_pos hmem, if_pos hmem]
      exact ih best
    · rw [if_neg hmem, if_neg hmem]
      rcases hc : Compare t cur o with ⟨cv, ce⟩
      cases ce with
      | some e => cases cv <;> rfl
      | none =>
        cases cv with
        | Equal =>
          show findActionLoop cur ex o rest t =
            (if Comparison.Equal = .Equal ∨ Comparison.Equal = .Greater then
              specResolveSwappedLoop cur ex o rest t
            else specResolveSwappedLoop cur ex o rest best)
          rw [if_pos (by simp)]
          exact ih t
        | Greater =>
          show findActionLoop cur ex o rest t =
            (if Comparison.Greater = .Equal ∨ Comparison.Greater = .Greater then
              specResolveSwappedLoop cur ex o rest t
            else specResolveSwappedLoop cur ex o rest best)
          rw [if_pos (by simp)]
          exact ih t
        | Less =>
          show findActionLoop cur ex o rest best =
            (if Comparison.Less = .Equal ∨ Comparison.Less = .Greater then
              specResolveSwappedLoop cur ex o rest t
            else specResolveSwappedLoop cur ex o rest best)
          rw [if_neg (by simp)]
          exact ih best



theorem TypeOf_canonMark (v : String) :
    TypeOf (canonMark v) {} = TypeOf v {} := by
  show typeFromSem (canonMark v) = typeFromSem v
  exact typeFromSem_canonMark v

/-- Re-running the container tag selection with the previous winner's
normalized tag as baseline returns the same winner, error-free. -/
theorem findLatestTag_refix {b t : String} {tags ex : List String}
    (hb : b ≠ "latest") (h : FindLatestTag b tags ex {} = (t, none))
    (ht : t ≠ "") : FindLatestTag (canonMark t) tags ex {} = (t, none) := by
  unfold FindLatestTag at h ⊢
  obtain ⟨hok, hcase⟩ := findTagLoop_ok b ex {} tags "" t h
  rcases hcase with ⟨hrt, -⟩ | ⟨l1, l2, hsplit, htex, htok, htne, hl2⟩
  · exact absurd hrt ht
  obtain ⟨ty, htyb, htyt⟩ := Compare_noOpts_err_none hb htok
  have hbt' : canonMark t ≠ "latest" := canonMark_ne_latest t
  have htyct : TypeOf (canonMark t) {} = (ty, none) := by
    rw [TypeOf_canonMark]
    exact htyt
  have hty : ∀ u ∈ tags, u ∉ ex → TypeOf u {} = (ty, none) := by
    intro u hu hnex
    obtain ⟨ty2, htyb2, htyu⟩ := Compare_noOpts_err_none hb (hok u hu hnex)
    have he : ty = ty2 := by
      have := htyb.symm.trans htyb2
      exact (Prod.mk.injEq _ _ _ _).mp this |>.1
    rw [← he] at htyu
    exact htyu
  have hmem_t : t ∈ tags := by
    rw [hsplit]
    exact List.mem_append_right l1 (List.mem_cons_self t l2)
  -- the baseline comparison values of pass 1, as semCmp signs
  have hbt_le : ¬ 0 < semCmp (canonMark b) (canonMark t) := by
    intro hgt
    apply htne
    have heval := Compare_noOpts hb htyb htyt
    have hx := congrArg Prod.fst heval
    simp only [] at hx
    rw [hx]
    rw [if_neg (by omega), if_neg (by omega)]
  -- pass 2 starts: l1 runs clean
  have hok1 : ∀ u ∈ l1, u ∉ ex → (Compare (canonMark t) u {}).2 = none := by
    intro u hu hnex
    have huty := hty u (by rw [hsplit]; exact List.mem_append_left _ hu) hnex
    rw [Compare_noOpts hbt' htyct huty]
  obtain ⟨r1, hr1⟩ := findTagLoop_no_err (canonMark t) ex {} l1 "" hok1
  rw [hsplit]
  rw [findTagLoop_append _ _ _ l1 (t :: l2) "" r1 hr1]
  conv_lhs => rw [findTagLoop]
  rw [if_neg htex]
  have hct : Compare (canonMark t) t {} = (.Equal, none) := by
    rw [Compare_noOpts hbt' htyct htyt, canonMark_idem]
    rw [if_pos (semCmp_refl (canonMark t))]
  rw [hct]
  show findTagLoop (canonMark t) ex {} l2 t = (t, none)
  apply findTagLoop_all_less
  intro u hu hnex
  have hu_tags : u ∈ tags := by
    rw [hsplit]
    exact List.mem_append_right l1 (List.mem_cons_of_mem t hu)
  have huty := hty u hu_tags hnex
  have hpass1 : Compare b u {} = (.Less, none) := by
    have h1v := hl2 u hu hnex
    have h2v := hok u hu_tags hnex
    calc Compare b u {} = ((Compare b u {}).1, (Compare b u {}).2) := rfl
    _ = (.Less, none) := by rw [h1v, h2v]
  have heval := Compare_noOpts hb htyb huty
  have hx := congrArg Prod.fst (heval.symm.trans hpass1)
  simp only [] at hx
  have hbu_pos : 0 < semCmp (canonMark b) (canonMark u) := by
    by_cases h0 : semCmp (canonMark b) (canonMark u) = 0
    · rw [if_pos h0] at hx
      exact absurd hx (by simp)
    · by_cases hlt : semCmp (canonMark b) (canonMark u) < 0
      · rw [if_neg h0, if_pos hlt] at hx
        exact absurd hx (by simp)
      · omega
  have hub_neg : semCmp (canonMark u) (canonMark b) < 0 := by
    rw [semCmp_flip_s]
    omega
  have hut_neg : semCmp (canonMark u) (canonMark t) < 0 := by
    by_cases hbt0 : semCmp (canonMark b) (canonMark t) = 0
    · rw [semCmp_zero_right_congr hbt0 (canonMark u)]
      exact hub_neg
    · have hbt_lt : semCmp (canonMark b) (canonMark t) < 0 := by omega
      exact semCmp_trans_lt hub_neg hbt_lt
  have htu_pos : 0 < semCmp (canonMark t) (canonMark u) := by
    rw [semCmp_flip_s] at hut_neg
    omega
  rw [Compare_noOpts hbt' htyct huty, canonMark_idem]
  rw [if_neg (by omega), if_neg (by omega)]

/-- One configured image entry, updated a second time, is unchanged. -/
theorem cfgLookup_mem {cfgs : List (String × ImageCfg)} {n : String} {c : ImageCfg}
    (h : cfgLookup cfgs n = some c) : ∃ k, (k, c) ∈ cfgs := by
  induction cfgs with
  | nil => simp [cfgLookup] at h
  | cons p rest ih =>
    obtain ⟨k, c'⟩ := p
    simp only [cfgLookup] at h
    by_cases hk : k = n
    · rw [if_pos hk] at h
      obtain rfl : c' = c := Option.some.inj h
      exact ⟨k, List.mem_cons_self _ _⟩
    · rw [if_neg hk] at h
      obtain ⟨k', hk'⟩ := ih h
      exact ⟨k', List.mem_cons_of_mem _ hk'⟩

theorem updateImageEntry_idem {cfgs : List (String × ImageCfg)}
    {tagsOf : String → List String} {e e' : ImageEntry}
    (hnr : ∀ p ∈ cfgs, (p.2).tagRegex = none)
    (h : updateImageEntry cfgs tagsOf e = .ok e') :
    updateImageEntry cfgs tagsOf e' = .ok e' := by
  unfold updateImageEntry at h ⊢
  cases hcfg : cfgLookup cfgs e.name with
  | none =>
    rw [hcfg] at h
    simp only [Except.ok.injEq] at h
    subst h
    rw [hcfg]
  | some cfg =>
    obtain ⟨k, hk⟩ := cfgLookup_mem hcfg
    have hre : cfg.tagRegex = none := hnr (k, cfg) hk
    rw [hcfg] at h
    simp only [hre] at h
    have hsplit : (if e.newTag ≠ "" then normalizeSemverWithRegex none e.newTag
        else (("" : String), (none : Option VErr))) =
        ((if e.newTag ≠ "" then canonMark e.newTag else ""), none) := by
      split_ifs <;> rfl
    rw [hsplit] at h
    simp only [] at h
    rcases hfind : FindLatestTag
        (if e.newTag ≠ "" then canonMark e.newTag else "")
        (tagsOf e.newName) cfg.excludeTags ⟨none, none⟩ with ⟨latest, err⟩
    cases err with
    | some er =>
      rw [hfind] at h
      simp at h
    | none =>
      rw [hfind] at h
      simp only [] at h
      by_cases hl : latest = ""
      · rw [if_pos hl] at h
        simp only [Except.ok.injEq] at h
        subst h
        rw [hcfg]
        simp only [hre]
        rw [hsplit]
        simp only []
        rw [hfind]
        simp only []
        rw [if_pos hl]
      · rw [if_neg hl] at h
        simp only [Except.ok.injEq] at h
        have hbl : (if e.newTag ≠ "" then canonMark e.newTag else "") ≠
            "latest" := by
          split_ifs with hne
          · exact canonMark_ne_latest e.newTag
          · simp
        have hfix := findLatestTag_refix hbl hfind hl
        subst h
        simp only []
        rw [hcfg]
        simp only [hre]
        have hsplit2 : (if latest ≠ "" then normalizeSemverWithRegex none latest
            else (("" : String), (none : Option VErr))) =
            ((if latest ≠ "" then canonMark latest else ""), none) := by
          split_ifs <;> rfl
        rw [hsplit2]
        simp only []
        rw [if_pos hl]
        have hfix' : FindLatestTag (canonMark latest) (tagsOf e.newName)
            cfg.excludeTags ⟨none, none⟩ = (latest, none) := hfix
        rw [hfix']
        simp only []
        rw [if_neg hl]

/-- C9's idempotence at document level, for regex-free configurations. -/
theorem updateKustomizationImages_idem {cfgs : List (String × ImageCfg)}
    {tagsOf : String → List String} {doc doc' : List ImageEntry}
    (hnr : ∀ p ∈ cfgs, (p.2).tagRegex = none)
    (h : updateKustomizationImages cfgs tagsOf doc = .ok doc') :
    updateKustomizationImages cfgs tagsOf doc' = .ok doc' := by
  induction doc generalizing doc' with
  | nil =>
    unfold updateKustomizationImages at h
    simp only [Except.ok.injEq] at h
    subst h
    rfl
  | cons e rest ih =>
    unfold updateKustomizationImages at h
    cases he : updateImageEntry cfgs tagsOf e with
    | error er =>
      rw [he] at h
      simp at h
    | ok e' =>
      rw [he] at h
      cases hr : updateKustomizationImages cfgs tagsOf rest with
      | error er =>
        rw [hr] at h
        simp at h
      | ok rest' =>
        rw [hr] at h
        simp only [Except.ok.injEq] at h
        subst h
        unfold updateKustomizationImages
        rw [updateImageEntry_idem hnr he, ih hr]



theorem toNat_charOfNat {n : Nat} (h : n.isValidChar) :
    (Char.ofNat n).toNat = n := by
  rw [Char.ofNat, dif_pos h]
  rfl

theorem lowerChar_ne_of_upper {c C : Char} (hC1 : 65 ≤ C.toNat)
    (hC2 : C.toNat ≤ 90) : lowerChar c ≠ C := by
  unfold lowerChar
  split_ifs with h
  · obtain ⟨h1, h2⟩ := h
    have n1 : 65 ≤ c.toNat := h1
    have n2 : c.toNat ≤ 90 := h2
    intro he
    have ht := congrArg Char.toNat he
    rw [toNat_charOfNat (Or.inl (by omega))] at ht
    omega
  · intro he
    subst he
    exact h ⟨hC1, hC2⟩

theorem goToLower_ne_upper_headed (s : String) (C : Char) (rest : List Char)
    (hC1 : 65 ≤ C.toNat) (hC2 : C.toNat ≤ 90) : goToLower s ≠ ⟨C :: rest⟩ := by
  intro h
  have hd : s.data.map lowerChar = C :: rest := congrArg String.data h
  cases hs : s.data with
  | nil =>
    rw [hs] at hd
    simp at hd
  | cons c cs =>
    rw [hs] at hd
    simp only [List.map_cons, List.cons.injEq] at hd
    exact lowerChar_ne_of_upper hC1 hC2 hd.1

/-- The strategy switch in `KustomizationImagesConfig.UnmarshalJSON` can
never select a non-default strategy: the lowercased input is compared to
mixed-case literals. -/
theorem unmarshalImagesConfig_strategy_error
    (compileOk : String → Bool) (raw : RawImagesConfig)
    (h : raw.updateStrategy ≠ "") :
    ∃ msg, unmarshalImagesConfig compileOk raw = .error msg := by
  have hf : goToLower raw.updateStrategy ≠ "FullUpdate" :=
    goToLower_ne_upper_headed _ 'F' _ (by decide) (by decide)
  have hm : goToLower raw.updateStrategy ≠ "MinorUpdate" :=
    goToLower_ne_upper_headed _ 'M' _ (by decide) (by decide)
  have hp : goToLower raw.updateStrategy ≠ "PatchUpdate" :=
    goToLower_ne_upper_headed _ 'P' _ (by decide) (by decide)
  unfold unmarshalImagesConfig
  by_cases hre : raw.tagRegex ≠ ""
  · by_cases hco : compileOk raw.tagRegex
    · rw [if_pos hre, if_pos hco]
      simp only []
      rw [if_pos h, if_neg hf, if_neg hm, if_neg hp]
      exact ⟨"invalid update-strategy", rfl⟩
    · rw [if_pos hre, if_neg hco]
      exact ⟨"invalid tag-regex", rfl⟩
  · rw [if_neg hre]
    simp only []
    rw [if_pos h, if_neg hf, if_neg hm, if_neg hp]
    exact ⟨"invalid update-strategy", rfl⟩



theorem semPrerelease_parsed {s : String} {p : SemParsed}
    (h : parseSemL s.data = some p) : semPrerelease s = ⟨p.prerelease⟩ := by
  unfold semPrerelease
  rw [h]

theorem semBuild_parsed {s : String} {p : SemParsed}
    (h : parseSemL s.data = some p) : semBuild s = ⟨p.build⟩ := by
  unfold semBuild
  rw [h]

theorem semMajor_parsed {s : String} {p : SemParsed}
    (h : parseSemL s.data = some p) : semMajor s = ⟨'v' :: p.major⟩ := by
  unfold semMajor
  rw [h]

theorem semMajorMinor_parsed {s : String} {p : SemParsed}
    (h : parseSemL s.data = some p) :
    semMajorMinor s = ⟨'v' :: p.major ++ '.' :: p.minor⟩ := by
  unfold semMajorMinor
  rw [h]

theorem semCanonical_parsed {s : String} {p : SemParsed}
    (h : parseSemL s.data = some p) :
    semCanonical s =
      ⟨'v' :: p.major ++ '.' :: p.minor ++ '.' :: p.patch ++ p.prerelease⟩ := by
  unfold semCanonical
  rw [h]

theorem mkString_ne_empty_iff (l : List Char) : (⟨l⟩ : String) ≠ "" ↔ l ≠ [] := by
  constructor
  · intro h he
    exact h (by rw [he])
  · intro h he
    exact h (congrArg String.data he)

/-- With no transform regex, `Type` reports `PreRelease` exactly when the
canonicalized string parses with a prerelease or build suffix. -/
theorem typeFromSem_pre_iff {v : String} {p : SemParsed}
    (h : parseSemL (canonMark v).data = some p) :
    (typeFromSem v = (.PreReleaseVersion, none) ↔
      (p.prerelease ≠ [] ∨ p.build ≠ [])) := by
  simp only [typeFromSem]
  rw [semPrerelease_parsed h, semBuild_parsed h]
  have hcond : ((⟨p.prerelease⟩ : String) ≠ "" ∨ (⟨p.build⟩ : String) ≠ "") ↔
      (p.prerelease ≠ [] ∨ p.build ≠ []) := by
    rw [mkString_ne_empty_iff, mkString_ne_empty_iff]
  by_cases hd : p.prerelease ≠ [] ∨ p.build ≠ []
  · rw [if_pos (hcond.2 hd)]
    exact ⟨fun _ => hd, fun _ => rfl⟩
  · rw [if_neg (fun hc => hd (hcond.1 hc))]
    constructor
    · intro hx
      exfalso
      split_ifs at hx <;> simp at hx
    · intro hx
      exact absurd hx hd

/-- With no transform regex and no prerelease/build, `Type` classifies by
which components the parse found, recorded in the `short` field. -/
theorem typeFromSem_short {v : String} {p : SemParsed}
    (h : parseSemL (canonMark v).data = some p)
    (hpre : p.prerelease = []) (hbld : p.build = []) :
    typeFromSem v =
      (if p.short = ['.', '0', '.', '0'] then .MajorVersion
       else if p.short = ['.', '0'] then .MajorMinorVersion
       else .CanonicalVersion, none) := by
  simp only [typeFromSem]
  rw [semPrerelease_parsed h, semBuild_parsed h, hpre, hbld]
  rw [if_neg (by simp)]
  rw [semMajor_parsed h, semMajorMinor_parsed h, semCanonical_parsed h]
  rcases parseSemL_spec h with ⟨hs, hmin, hpat, -, -, hl⟩ |
      ⟨hs, hpat, -, -, hl⟩ | ⟨hs, -, hl⟩
  · have heq : canonMark v = (⟨'v' :: p.major⟩ : String) := String.ext hl
    rw [hs, if_pos heq, if_pos (by decide)]
  · have hne1 : canonMark v ≠ (⟨'v' :: p.major⟩ : String) := by
      intro he
      have hlen := congrArg (fun s => s.data.length) he
      simp only [hl] at hlen
      simp at hlen
    have heq2 : canonMark v = (⟨'v' :: p.major ++ '.' :: p.minor⟩ : String) :=
      String.ext hl
    rw [hs, if_neg hne1, if_pos heq2, if_neg (by decide), if_pos (by decide)]
  · rw [hpre, hbld] at hl
    simp only [List.append_nil] at hl
    have hne1 : canonMark v ≠ (⟨'v' :: p.major⟩ : String) := by
      intro he
      have hlen := congrArg (fun s => s.data.length) he
      simp only [hl] at hlen
      simp at hlen
    have hne2 : canonMark v ≠ (⟨'v' :: p.major ++ '.' :: p.minor⟩ : String) := by
      intro he
      have hlen := congrArg (fun s => s.data.length) he
      simp only [hl] at hlen
      simp at hlen
    have heq3 : canonMark v =
        (⟨'v' :: p.major ++ '.' :: p.minor ++ '.' :: p.patch ++ p.prerelease⟩ :
          String) := by
      apply String.ext
      rw [hpre]
      simp only [List.append_nil]
      exact hl
    rw [hs, if_neg hne1, if_neg hne2, if_pos heq3]
    have hnshort : ¬ (([] : List Char) = ['.', '0', '.', '0']) := by decide
    have hnshort2 : ¬ (([] : List Char) = ['.', '0']) := by decide
    rw [if_neg hnshort, if_neg hnshort2]


/-! ## The claims -/

/-- C1 counterexample: the spec's candidate walk on current version `v1`
and the single candidate `v2` keeps `v2`, while the GitHub Action
resolver, which swaps the two `Compare` arguments, classifies `v2` as an
older baseline and keeps nothing. -/
theorem c1_counterexample :
    specResolve "v1" ["v2"] [] {} = ("v2", none) ∧
    FindLatestActionTag "v1" ["v2"] [] {} = ("", none) ∧
    (("v2", none) : String × Option CmpErr) ≠ ("", none) :=
  ⟨rfl, rfl, by decide⟩

/-- C1 (amended): the container and Helm resolvers implement the
specified candidate walk — skip excluded candidates, call
`Compare(currentVersion, candidate, opts)`, keep the candidate exactly on
`Equal` or `Greater`, return the last kept candidate or the empty
string — but the GitHub Action resolver implements the same walk with the
two `Compare` arguments swapped: it calls
`Compare(candidate, currentVersion, opts)`. -/
theorem c1_resolvers :
    (∀ (cur : String) (tags ex : List String) (o : Options),
      FindLatestTag cur tags ex o = specResolve cur tags ex o) ∧
    (∀ (cur : String) (vers ex : List String) (o : Options),
      FindLatestVersion cur vers ex o = specResolve cur vers ex o) ∧
    (∀ (cur : String) (tags ex : List String) (o : Options),
      FindLatestActionTag cur tags ex o = specResolveSwapped cur tags ex o) := by
  refine ⟨fun cur tags ex o => ?_, fun cur vers ex o => ?_, fun cur tags ex o => ?_⟩
  · exact (specResolveLoop_eq_findTagLoop cur ex o tags "").symm
  · show findVersionLoop cur ex o vers "" = specResolveLoop cur ex o vers ""
    rw [findVersionLoop_eq_findTagLoop, specResolveLoop_eq_findTagLoop]
  · exact findActionLoop_eq_specSwapped cur ex o tags ""

/-- C2 counterexample: a `"latest"` baseline makes `Compare` return
`Greater` (an upgrade), not `Less` as the spec words it. -/
theorem c2_counterexample :
    Compare "latest" "v1.2.3" {} = (.Greater, none) ∧
    Comparison.Greater ≠ Comparison.Less :=
  ⟨rfl, by decide⟩

/-- C2 (amended): for every candidate and options, a `"latest"` baseline
short-circuits `Compare` to `(Greater, nil)` — the sentinel does accept
every candidate, but the comparison value reported is `Greater`, not
`Less`. -/
theorem c2_latest_shortcut (t : String) (o : Options) :
    Compare "latest" t o = (.Greater, none) := by
  unfold Compare
  rw [if_pos rfl]

/-- C3 counterexample: through an extraction regex that captures build
metadata (pattern
`^(?P<major>[0-9]+)\.(?P<minor>[0-9]+)\.(?P<patch>[0-9]+)\+(?P<build>[a-z]+)$`),
the input `1.2.3+b` matches with a populated `build` group, yet `Type`
classifies it `CanonicalVersion`: the group-based branch never looks at
the `build` group. -/
theorem c3_counterexample :
    buildTagRegex.find "1.2.3+b" =
      some { major := "1", minor := "2", patch := "3", build := "b" } ∧
    TypeOf "1.2.3+b" ⟨some buildTagRegex, none⟩ = (.CanonicalVersion, none) ∧
    VersionType.CanonicalVersion ≠ VersionType.PreReleaseVersion :=
  ⟨rfl, rfl, by decide⟩

/-- C3 (amended): without an extraction rule, `Type` classifies the
marker-normalized string from its parsed `x/mod/semver` components —
`PreReleaseVersion` exactly when prerelease or build metadata is present,
otherwise `Major`/`MajorMinor`/`Canonical` from how much of the triple was
written — and the spec's five examples hold. With an extraction rule whose
match populates the `version` group, the extracted string is classified
exactly as a string without a rule, so the claimed component rule holds
there too. With an extraction rule whose match populates no `version`
group, classification reads only the `prerelease`, `patch`, `minor` and
`major` groups, in that order: the `build` group is ignored, so build
metadata alone never yields `PreReleaseVersion` on this path. -/
theorem c3_type_classification :
    (TypeOf "v1" {} = (.MajorVersion, none) ∧
     TypeOf "v1.1" {} = (.MajorMinorVersion, none) ∧
     TypeOf "v1.1.1" {} = (.CanonicalVersion, none) ∧
     TypeOf "v2.1.0-rc" {} = (.PreReleaseVersion, none) ∧
     TypeOf "v2.1.0+build" {} = (.PreReleaseVersion, none)) ∧
    (∀ (v : String) (p : SemParsed), parseSemL (canonMark v).data = some p →
      (TypeOf v {} = (.PreReleaseVersion, none) ↔
        p.prerelease ≠ [] ∨ p.build ≠ [])) ∧
    (∀ (v : String) (p : SemParsed), parseSemL (canonMark v).data = some p →
      p.prerelease = [] → p.build = [] →
      TypeOf v {} =
        (if p.short = ['.', '0', '.', '0'] then .MajorVersion
         else if p.short = ['.', '0'] then .MajorMinorVersion
         else .CanonicalVersion, none)) ∧
    (∀ (re : Rgx) (pol : Option PolicyType) (v : String) (g : Groups),
      re.find v = some g → g.version = "" →
      TypeOf v ⟨some re, pol⟩ =
        (if g.prerelease ≠ "" then (.PreReleaseVersion, none)
         else if g.patch ≠ "" then (.CanonicalVersion, none)
         else if g.minor ≠ "" then (.MajorMinorVersion, none)
         else if g.major ≠ "" then (.MajorVersion, none)
         else (.CanonicalVersion, some .undetermined))) ∧
    (∀ (re : Rgx) (pol : Option PolicyType) (v : String) (g : Groups),
      re.find v = some g → g.version ≠ "" →
      TypeOf v ⟨some re, pol⟩ = TypeOf g.version {}) := by
  refine ⟨⟨rfl, rfl, rfl, rfl, rfl⟩, ?_, ?_, ?_, ?_⟩
  · intro v p h
    show typeFromSem v = (.PreReleaseVersion, none) ↔ _
    exact typeFromSem_pre_iff h
  · intro v p h hpre hbld
    show typeFromSem v = _
    exact typeFromSem_short h hpre hbld
  · intro re pol v g hfind hver
    simp only [TypeOf, hfind]
    rw [if_pos hver]
  · intro re pol v g hfind hver
    simp only [TypeOf, hfind]
    rw [if_neg hver]

/-- C3 witness: `v1.2.3-rc` parses with a non-empty prerelease component
and is classified `PreReleaseVersion`. -/
theorem c3_witness :
    TypeOf "v1.2.3-rc" {} = (.PreReleaseVersion, none) :=
  (c3_type_classification.2.1 "v1.2.3-rc"
      ⟨['1'], ['2'], ['3'], [], ['-', 'r', 'c'], []⟩ (by decide)).2
    (Or.inl (by decide))

/-- C4 counterexample: under the regex
`^(?:(?P<major>latest)|v(?P<minor>[0-9]+))$`, `Type` succeeds on both
`latest` (as `MajorVersion`) and `v1` (as `MajorMinorVersion`), the two
types differ, yet `Compare("latest", "v1", opts)` reports `Greater`
rather than failing with a type mismatch: the `"latest"` shortcut fires
before the type check. -/
theorem c4_counterexample :
    TypeOf "latest" ⟨some latestOrMinorRegex, none⟩ = (.MajorVersion, none) ∧
    TypeOf "v1" ⟨some latestOrMinorRegex, none⟩ = (.MajorMinorVersion, none) ∧
    VersionType.MajorVersion ≠ VersionType.MajorMinorVersion ∧
    Compare "latest" "v1" ⟨some latestOrMinorRegex, none⟩ = (.Greater, none) :=
  ⟨rfl, rfl, by decide, rfl⟩

/-- C4 (amended): when the baseline is not the literal `"latest"` and
`Type` succeeds on both arguments with differing types, `Compare` returns
`Equal` with `ErrTypeMismatch` — so it reports neither `Greater` nor
`Less`; a `"latest"` baseline bypasses the type check entirely. -/
theorem c4_type_mismatch (a b : String) (o : Options) (ta tb : VersionType)
    (ha : a ≠ "latest") (h1 : TypeOf a o = (ta, none))
    (h2 : TypeOf b o = (tb, none)) (hne : ta ≠ tb) :
    Compare a b o = (.Equal, some .typeMismatch) := by
  unfold Compare
  rw [if_neg ha]
  simp only [h1, h2]
  rw [if_pos (fun he => hne he.symm)]

/-- C4 witness: baseline `v1` against candidate `v1.1` is rejected with a
type mismatch. -/
theorem c4_witness :
    Compare "v1" "v1.1" {} = (.Equal, some .typeMismatch) :=
  c4_type_mismatch "v1" "v1.1" {} .MajorVersion .MajorMinorVersion
    (by decide) (by decide) (by decide) (by decide)

/-- C5 counterexample: with no extraction rule, `Canonical` on
`not-a-version` succeeds with `vnot-a-version`, which is not a parseable
version — no validation step exists. -/
theorem c5_counterexample :
    Canonical "not-a-version" {} = ("vnot-a-version", none) ∧
    semValid "vnot-a-version" = false :=
  ⟨rfl, by decide⟩

/-- C5 (amended): `Canonical` applies the extraction rule when one is
supplied (failing when the pattern does not match) and then normalizes
the leading marker character — and that is all: with no rule it always
succeeds on the marker-normalized input, and with a matching rule it
always succeeds on the marker-normalized extraction, parseable or not. -/
theorem c5_canonical_shape :
    (∀ (v : String) (pol : Option PolicyType),
      Canonical v ⟨none, pol⟩ = (canonMark v, none)) ∧
    (∀ (v : String) (re : Rgx) (pol : Option PolicyType),
      re.find v = none → Canonical v ⟨some re, pol⟩ = ("", some .noRegexMatch)) ∧
    (∀ (v : String) (re : Rgx) (pol : Option PolicyType) (g : Groups),
      re.find v = some g →
      Canonical v ⟨some re, pol⟩ =
        (canonMark (if g.version = "" then canonicalWithRegex g else g.version),
          none)) := by
  refine ⟨fun v pol => rfl, fun v re pol h => ?_, fun v re pol g h => ?_⟩
  · simp only [Canonical, h]
  · simp only [Canonical, h]

/-- C5 witness: a non-matching extraction rule makes `Canonical` fail. -/
theorem c5_witness :
    Canonical "nope" ⟨some buildTagRegex, none⟩ = ("", some .noRegexMatch) :=
  c5_canonical_shape.2.1 "nope" buildTagRegex none (by decide)

/-- C6 counterexample: `v2.0.0` is newer than baseline `v1.0.0`, the
policy gate is set to `MinorRelease`, the baseline's policy class is
`MajorRelease` — and `Compare` returns `Equal` TOGETHER WITH
`ErrPolicyRejection`: the rejection does carry an error, it is not a
silent `Equal`. -/
theorem c6_counterexample :
    semCmp "v1.0.0" "v2.0.0" < 0 ∧
    Policy "v1.0.0" = (.MajorRelease, false) ∧
    PolicyType.MajorRelease ≠ PolicyType.MinorRelease ∧
    Compare "v1.0.0" "v2.0.0" ⟨none, some .MinorRelease⟩ =
      (.Equal, some .policyRejection) ∧
    some CmpErr.policyRejection ≠ (none : Option CmpErr) :=
  ⟨by decide, rfl, by decide, rfl, by decide⟩

/-- C6 (amended): when a policy is configured, the baseline is not
`"latest"`, both arguments type and canonicalize cleanly, the candidate
compares newer, and the baseline's policy class (computed without error)
differs from the configured one, `Compare` returns `Equal` — suppressing
the upgrade — but WITH `ErrPolicyRejection` as its error value. -/
theorem c6_policy_gate (b t : String) (o : Options) (p : PolicyType)
    (ty : VersionType) (cb ct : String) (pol : PolicyType)
    (hp : o.policy = some p) (hb : b ≠ "latest")
    (h1 : TypeOf b o = (ty, none)) (h2 : TypeOf t o = (ty, none))
    (h3 : Canonical b o = (cb, none)) (h4 : Canonical t o = (ct, none))
    (hlt : semCmp cb ct < 0) (hpol : Policy cb = (pol, false)) (hne : pol ≠ p) :
    Compare b t o = (.Equal, some .policyRejection) := by
  unfold Compare
  rw [if_neg hb]
  simp only [h1, h2]
  rw [if_neg (by simp : ¬ (ty ≠ ty))]
  simp only [h3, h4]
  rw [if_neg (by omega : ¬ (semCmp cb ct = 0)), if_pos hlt]
  simp only [hp, hpol]
  rw [if_pos (fun he => hne he.symm)]

/-- C6 witness: a `MinorRelease`-classed baseline under a `MajorRelease`
gate is rejected with `ErrPolicyRejection`. -/
theorem c6_witness :
    Compare "v0.1.0" "v0.2.0" ⟨none, some .MajorRelease⟩ =
      (.Equal, some .policyRejection) :=
  c6_policy_gate "v0.1.0" "v0.2.0" ⟨none, some .MajorRelease⟩ .MajorRelease
    .CanonicalVersion "v0.1.0" "v0.2.0" .MinorRelease rfl (by decide)
    (by decide) (by decide) rfl rfl (by decide) (by decide) (by decide)

/-- C7 counterexample: candidate `v1.1` draws a type-mismatch error
against baseline `v1`, and the whole resolution of `[v1.1, v2]` aborts
with `("", ErrTypeMismatch)` even though the later candidate `v2` would
have qualified. -/
theorem c7_counterexample :
    Compare "v1" "v1.1" {} = (.Equal, some .typeMismatch) ∧
    Compare "v1" "v2" {} = (.Greater, none) ∧
    FindLatestTag "v1" ["v1.1", "v2"] [] {} = ("", some .typeMismatch) :=
  ⟨rfl, rfl, rfl⟩

/-- C7 (amended): in the container and Helm resolver loops, the first
non-excluded candidate whose comparison returns any error — a type
mismatch included — aborts the whole resolution, which returns the empty
string with that error; the remaining candidates are never examined. -/
theorem c7_error_aborts (b : String) (l1 l2 : List String) (t : String)
    (ex : List String) (o : Options) (e : CmpErr)
    (hok : ∀ u ∈ l1, u ∉ ex → (Compare b u o).2 = none)
    (hmem : t ∉ ex) (herr : (Compare b t o).2 = some e) :
    FindLatestTag b (l1 ++ t :: l2) ex o = ("", some e) ∧
    FindLatestVersion b (l1 ++ t :: l2) ex o = ("", some e) := by
  obtain ⟨r, hr⟩ := findTagLoop_no_err b ex o l1 "" hok
  have habort : findTagLoop b ex o (l1 ++ t :: l2) "" = ("", some e) := by
    rw [findTagLoop_append b ex o l1 (t :: l2) "" r hr]
    exact findTagLoop_err b ex o t e l2 r hmem herr
  exact ⟨habort, by
    show findVersionLoop b ex o (l1 ++ t :: l2) "" = ("", some e)
    rw [findVersionLoop_eq_findTagLoop]
    exact habort⟩

/-- C7 witness: after the clean candidate `v0`, the erroring candidate
`v1.1` aborts both resolvers even though `v2` follows. -/
theorem c7_witness :
    FindLatestTag "v1" ["v0", "v1.1", "v2"] [] {} = ("", some .typeMismatch) ∧
    FindLatestVersion "v1" ["v0", "v1.1", "v2"] [] {} =
      ("", some .typeMismatch) :=
  c7_error_aborts "v1" ["v0"] ["v2"] "v1.1" [] {} .typeMismatch
    (by decide) (by decide) (by decide)

/-- C8: with no extraction rule, `Canonical` is idempotent — running it
on its own successful output returns that output unchanged. -/
theorem c8_canonical_idem (v : String) (o : Options) (c : String)
    (hre : o.transformRegex = none) (h : Canonical v o = (c, none)) :
    Canonical c o = (c, none) := by
  cases o with
  | mk re pol =>
    have hre' : re = none := hre
    subst hre'
    rw [Canonical_noRegex] at h
    have hc : canonMark v = c := congrArg Prod.fst h
    subst hc
    rw [Canonical_noRegex, canonMark_idem]

/-- C8 witness: `Canonical` fixes its own output `v1.2.3`. -/
theorem c8_witness : Canonical "v1.2.3" {} = ("v1.2.3", none) :=
  c8_canonical_idem "1.2.3" {} "v1.2.3" rfl rfl

/-- C9 counterexample: under the two-alternative extraction regex, the
first pass succeeds — the current tag `v1.0.0` normalizes to itself, the
raw candidate `t2.5.0cc` extracts to `v2.5.0` and is written as the new
tag — but the second pass normalizes the just-written raw tag `t2.5.0cc`
to the canonical `v2.5.0`, a baseline the regex no longer matches, and
the whole filter aborts with an error instead of leaving the document
unchanged. -/
theorem c9_counterexample :
    updateKustomizationImages [("app", ⟨[], some twoFormRegex⟩)]
        (fun _ => ["t2.5.0cc"]) [⟨"app", "repo", "v1.0.0"⟩] =
      .ok [⟨"app", "repo", "t2.5.0cc"⟩] ∧
    updateKustomizationImages [("app", ⟨[], some twoFormRegex⟩)]
        (fun _ => ["t2.5.0cc"]) [⟨"app", "repo", "t2.5.0cc"⟩] =
      .error (.resolve (.baselineType .noRegexMatch)) :=
  ⟨rfl, rfl⟩

/-- C9 (amended): over a fixed external tag source, the kustomization
image-update filter is idempotent whenever every per-image configuration
carries no extraction regex — the second run finds the already-applied
version again and mutates nothing. With an extraction regex the invariant
can fail: the second run's baseline is the normalization of the
just-written raw tag, which the regex need not match, so the second run
can abort with an error. -/
theorem c9_filter_idempotent (cfgs : List (String × ImageCfg))
    (tagsOf : String → List String) (doc doc2 : List ImageEntry)
    (hnr : ∀ p ∈ cfgs, (p.2).tagRegex = none)
    (h : updateKustomizationImages cfgs tagsOf doc = .ok doc2) :
    updateKustomizationImages cfgs tagsOf doc2 = .ok doc2 :=
  updateKustomizationImages_idem hnr h

/-- C9 witness: one regex-free configured image with tags `[v1, v2]` is
bumped from `v1` to `v2` on the first pass, and the second pass leaves
the updated document unchanged. -/
theorem c9_witness :
    updateKustomizationImages [("app", ⟨[], none⟩)] (fun _ => ["v1", "v2"])
        [⟨"app", "repo", "v1"⟩] = .ok [⟨"app", "repo", "v2"⟩] ∧
    updateKustomizationImages [("app", ⟨[], none⟩)] (fun _ => ["v1", "v2"])
        [⟨"app", "repo", "v2"⟩] = .ok [⟨"app", "repo", "v2"⟩] :=
  ⟨rfl, c9_filter_idempotent [("app", ⟨[], none⟩)] (fun _ => ["v1", "v2"])
    [⟨"app", "repo", "v1"⟩] [⟨"app", "repo", "v2"⟩]
    (fun p hp => by
      cases hp with
      | head => rfl
      | tail _ hmem => cases hmem) rfl⟩

/-- C10: every images-annotation entry with a non-empty update-strategy
string fails to parse — the value is lowercased before being compared
against the mixed-case literals `"FullUpdate"`, `"MinorUpdate"`,
`"PatchUpdate"`, and a lowercased string never equals an
uppercase-headed literal. -/
theorem c10_strategy_unparseable (compileOk : String → Bool)
    (raw : RawImagesConfig) (h : raw.updateStrategy ≠ "") :
    ∃ msg, unmarshalImagesConfig compileOk raw = .error msg :=
  unmarshalImagesConfig_strategy_error compileOk raw h

/-- C10 witness: even the exact literal `PatchUpdate` is rejected. -/
theorem c10_witness :
    ∃ msg, unmarshalImagesConfig (fun _ => true)
      ⟨"app", "", [], "PatchUpdate"⟩ = .error msg :=
  c10_strategy_unparseable (fun _ => true) ⟨"app", "", [], "PatchUpdate"⟩
    (by decide)

end Automata
